import Mathlib

/-!
# Verification of the mcp-obsidian Semantic Index & Relationship Engine

A shallow embedding, in Lean 4, of the core semantic subsystem of the
`mcp-obsidian` repository:

* `src/mcp_obsidian/semantic/embeddings.py` (`EmbeddingsManager`)
* `src/mcp_obsidian/semantic/search.py` (`SemanticSearchEngine`)
* `src/mcp_obsidian/semantic/relationships.py` (`RelationshipAnalyzer`)
* `src/mcp_obsidian/semantic/links.py` (`LinkSuggestionEngine`)

Modelling conventions:

* Floating point vectors are modelled as `List ℚ` (exact rationals).
* External libraries (the sentence-transformers model, `hashlib`, `faiss`'s
  `normalize_L2`, `yaml`) are not code of this repository; they enter the
  model as components of an `Externals` record of abstract functions.
  Facts the development needs about them (e.g. that `faiss.normalize_L2`
  produces unit vectors in exact arithmetic) appear as explicit hypotheses
  of the theorems that use them.
* `faiss.IndexFlatIP` is modelled by its documented contract: the index
  stores rows, and `search(q, k)` returns the `k` best (index, inner
  product) pairs in descending-score order, padded with index `-1` when
  fewer than `k` rows exist.
* Stateful Python objects become explicit state records threaded through
  the functions; a Python method that can raise returns an explicit
  success/raise outcome together with the post-call state (Python
  exceptions do not roll back mutations, and neither does the model).
* File persistence is modelled by a `DFile` (absent / corrupt / parsed
  content) per on-disk artifact; a write that can fail takes a `Bool`
  telling whether the underlying OS write succeeds.
-/

/-! ## Generic helpers -/

/-- Inner product of two vectors (`np.dot` of 1-d arrays; excess entries of
the longer vector are irrelevant for the uses below, all of which compare
equal-length rows). -/
def dot (u v : List ℚ) : ℚ := (List.zipWith (· * ·) u v).sum

/-- `v` is the all-zeros vector. -/
def isZero (v : List ℚ) : Bool := v.all (fun x => decide (x = 0))

/-- Stable insertion (descending by `key`) used to model Python's stable
`list.sort(key=..., reverse=True)`.  `sortDesc` inserts elements from the
right, so the inserted element is original-earlier than the already-sorted
tail and must be placed *before* any element with an equal key — exactly the
stable descending order. -/
def insDesc (key : α → ℚ) (x : α) : List α → List α
  | [] => [x]
  | y :: ys => if key x < key y then y :: insDesc key x ys else x :: y :: ys

/-- Stable descending sort by `key` (models `sort(key=..., reverse=True)`). -/
def sortDesc (key : α → ℚ) : List α → List α
  | [] => []
  | x :: xs => insDesc key x (sortDesc key xs)

/-- Python `dict` assignment `d[k] = v` on an association list: replaces the
value in place if the key is present (keeping its position, as Python dicts
keep the original insertion position), else appends at the end. -/
def assocSet (l : List (String × α)) (k : String) (v : α) : List (String × α) :=
  match l with
  | [] => [(k, v)]
  | (k', v') :: rest => if k' = k then (k, v) :: rest else (k', v') :: assocSet rest k v

/-- Python `dict` lookup `d.get(k)` / `d[k]` on an association list. -/
def assocFind (l : List (String × α)) (k : String) : Option α :=
  match l with
  | [] => none
  | (k', v') :: rest => if k' = k then some v' else assocFind rest k

/-! ## External collaborators

The engine calls four external libraries. They are modelled as abstract
functions collected in one record; the repository's own code never looks
inside their results.  -/

structure Externals where
  /-- `model.encode(text, normalize_embeddings=True)` (sentence-transformers). -/
  encode : String → List ℚ
  /-- `model.get_sentence_embedding_dimension()`. -/
  dim : ℕ
  /-- `faiss.normalize_L2` applied to a single row. -/
  normalize : List ℚ → List ℚ
  /-- `hashlib.sha256(content.encode()).hexdigest()[:16]`
  (`EmbeddingsManager._compute_content_hash`, embeddings.py:65-67). -/
  shaHash : String → String
  /-- The vector produced by `EmbeddingsManager.generate_note_embedding`
  (embeddings.py:145-197) for a `(filepath, content)` pair.  That method
  extracts front matter, cleans markdown, assembles a contextual string and
  encodes it; every claim treats the resulting vector opaquely, so the whole
  deterministic text pipeline is abstracted into one function.  `none`
  models the method raising (yaml / model errors). -/
  noteVec : String → String → Option (List ℚ)
  /-- The `title` field computed by `generate_note_embedding`. -/
  noteTitle : String → String → String
  /-- Whether `yaml.safe_load` succeeds on a front-matter block. -/
  yamlOk : String → Bool

/-! ## EmbeddingsManager (embeddings.py) -/

/-- One record of the embeddings cache (`cache["notes"][filepath]`).
The `timestamp` and `tags` fields are carried by the code but never read by
any operation under verification, so they are omitted. -/
structure NoteRec where
  embedding : Option (List ℚ)
  hash : String
  filepath : String
  title : String
deriving DecidableEq

/-- The parsed embeddings cache (`self._cache`).  `last_updated` is omitted
(never read). -/
structure EmbCache where
  model : String
  dimension : ℕ
  notes : List (String × NoteRec)
deriving DecidableEq

/-- State of an on-disk artifact: missing file, unparsable file, or parsed
content. -/
inductive DFile (α : Type) where
  | absent : DFile α
  | corrupt : DFile α
  | good : α → DFile α
deriving DecidableEq

/-- Mutable state of an `EmbeddingsManager`. -/
structure MgrState where
  /-- `self.model_name`. -/
  modelName : String
  /-- `self._cache` (lazily loaded). -/
  cacheMem : Option EmbCache
  /-- Contents of `embeddings-cache.json`. -/
  cacheDisk : DFile EmbCache
deriving DecidableEq

/-- A fresh empty cache (the dict built inline by `load_cache`). -/
def freshCache (E : Externals) (modelName : String) : EmbCache :=
  { model := modelName, dimension := E.dim, notes := [] }

/-- `EmbeddingsManager.load_cache` (embeddings.py:246-287): returns the
memoized cache if present; otherwise reads the disk file, falling back to a
fresh empty cache when the file is absent, unparsable, or was written by a
different model.  Returns the loaded cache and the manager state after the
call (the result is memoized into `self._cache`). -/
def load_cache (E : Externals) (st : MgrState) : EmbCache × MgrState :=
  match st.cacheMem with
  | some c => (c, st)
  | none =>
    let c :=
      match st.cacheDisk with
      | .absent => freshCache E st.modelName
      | .corrupt => freshCache E st.modelName
      | .good data =>
        if data.model ≠ st.modelName then freshCache E st.modelName else data
    (c, { st with cacheMem := some c })

/-- `EmbeddingsManager.get_cached_embedding` (embeddings.py:323-353):
returns the cached vector for `fp` when a record exists whose `hash` equals
`contentHash` and whose `embedding` is non-null. -/
def get_cached_embedding (E : Externals) (st : MgrState) (fp contentHash : String) :
    Option (List ℚ) × MgrState :=
  match assocFind (load_cache E st).1.notes fp with
  | none => (none, (load_cache E st).2)
  | some r =>
    if r.hash ≠ contentHash then (none, (load_cache E st).2)
    else
      match r.embedding with
      | none => (none, (load_cache E st).2)
      | some e => (some e, (load_cache E st).2)

/-- `EmbeddingsManager.generate_note_embedding` (embeddings.py:145-197):
builds the cache record for a note.  `none` models the method raising. -/
def generate_note_embedding (E : Externals) (fp content : String) : Option NoteRec :=
  (E.noteVec fp content).map fun v =>
    { embedding := some v
      hash := E.shaHash content
      filepath := fp
      title := E.noteTitle fp content }

/-- `EmbeddingsManager.save_cache` called with no argument
(embeddings.py:289-321): persists `self._cache` when present (a no-op with a
warning when `self._cache is None`).  The write itself is atomic
(temp file + `Path.replace`); `ok` says whether the underlying write
succeeds.  Returns `(raised, new state)`: on failure the exception
propagates and the on-disk file is untouched. -/
def save_cache (st : MgrState) (ok : Bool) : Bool × MgrState :=
  match st.cacheMem with
  | none => (false, st)
  | some c => if ok then (false, { st with cacheDisk := .good c }) else (true, st)

/-- Outcome of `update_embedding`: the returned vector (`none` when the call
raised), the manager state after the call, whether a new embedding was
computed (`generate_note_embedding` ran), and whether a successful disk
write happened. -/
structure UpdOut where
  ret : Option (List ℚ)
  st : MgrState
  computed : Bool
  persisted : Bool
deriving DecidableEq

/-- `EmbeddingsManager.update_embedding` (embeddings.py:355-387): content
hash, cache-hit check (unless `force`), regeneration, in-memory cache
update, persist. `ok` says whether the persistence write succeeds. -/
def update_embedding (E : Externals) (st : MgrState) (fp content : String)
    (force : Bool) (ok : Bool) : UpdOut :=
  let h := E.shaHash content
  let hit : Option (List ℚ) × MgrState :=
    if force then (none, st) else get_cached_embedding E st fp h
  match hit with
  | (some e, st1) => { ret := some e, st := st1, computed := false, persisted := false }
  | (none, st1) =>
    match generate_note_embedding E fp content with
    | none => { ret := none, st := st1, computed := true, persisted := false }
    | some r =>
      let (cache, st2) := load_cache E st1
      let cache2 := { cache with notes := assocSet cache.notes fp r }
      let st3 := { st2 with cacheMem := some cache2 }
      let (raised, st4) := save_cache st3 ok
      { ret := if raised then none else r.embedding
        st := st4
        computed := true
        persisted := !raised }

/-- Concrete externals used by witnesses: a 1-dimensional embedding model. -/
def wE : Externals :=
  { encode := fun _ => [1]
    dim := 1
    normalize := fun v => v
    shaHash := fun s => s
    noteVec := fun _ _ => some [1]
    noteTitle := fun _ _ => "t"
    yamlOk := fun _ => true }

/-- A fresh manager state (nothing loaded, no cache file on disk). -/
def wSt : MgrState := { modelName := "m", cacheMem := none, cacheDisk := DFile.absent }

/-! ## Path and string helpers (`pathlib.Path(...).stem`, `str.strip`,
Python truthiness of optional strings) -/

/-- The last `/`-separated component of a path (`PurePath.name`). -/
def lastComponent (s : List Char) : List Char :=
  s.foldl (fun acc c => if c = '/' then [] else acc ++ [c]) []

/-- `PurePath.stem` on a file name: CPython computes
`i = name.rfind('.')` and returns `name[:i]` when `0 < i < len(name) - 1`,
else `name` unchanged. -/
def stemChars (name : List Char) : List Char :=
  match ((List.range name.length).filter (fun i => name.getD i ' ' = '.')).getLast? with
  | some i => if 0 < i ∧ i < name.length - 1 then name.take i else name
  | none => name

/-- `pathlib.Path(p).stem`. -/
def stem (p : String) : String := ⟨stemChars (lastComponent p.toList)⟩

/-- Python whitespace recognized by `str.strip()` (ASCII part). -/
def isPySpace (c : Char) : Bool :=
  c == ' ' || c == '\t' || c == '\n' || c == '\r' || c == Char.ofNat 11 || c == Char.ofNat 12

/-- `str.strip()` on a character list. -/
def pyStripChars (s : List Char) : List Char :=
  ((s.dropWhile isPySpace).reverse.dropWhile isPySpace).reverse

/-- `str.strip()`. -/
def pyStrip (s : String) : String := ⟨pyStripChars s.toList⟩

/-- Python truthiness of an `Optional[str]`: `None` and `""` are falsy. -/
def truthyStr : Option String → Bool
  | none => false
  | some s => !(s == "")

/-! ## SemanticSearchEngine (search.py) -/

/-- A `{'filepath': ..., 'content': ...}` input note. -/
structure Note where
  filepath : String
  content : String
deriving DecidableEq

/-- The parsed `index-metadata.json` / `self._metadata` dict.
`last_rebuild` is omitted (timestamp, never read by the verified paths). -/
structure IdxMeta where
  total_notes : ℕ
  note_paths : List String
  dimension : ℕ
  /-- The `model` key (absent in a freshly created metadata dict). -/
  model : Option String
deriving DecidableEq

/-- Mutable state of a `SemanticSearchEngine` (plus its manager).  The FAISS
index object is its list of stored rows. -/
structure EngineState where
  mgr : MgrState
  /-- `self._index` (`none` = not yet loaded). -/
  idx : Option (List (List ℚ))
  /-- `self._metadata`. -/
  metadata : Option IdxMeta
  /-- Contents of `faiss-index.bin`. -/
  idxDisk : DFile (List (List ℚ))
  /-- Contents of `index-metadata.json`. -/
  metaDisk : DFile IdxMeta
deriving DecidableEq

/-- `SemanticSearchEngine._load_or_create_index` (search.py:51-85): when both
files exist and parse, the persisted index and metadata are adopted
unchanged (no check of any kind against the active model); in every other
case a fresh empty index is created. -/
def load_or_create_index (E : Externals) (st : EngineState) : EngineState :=
  match st.idxDisk, st.metaDisk with
  | DFile.good rows, DFile.good m => { st with idx := some rows, metadata := some m }
  | _, _ =>
    { st with
      idx := some []
      metadata := some { total_notes := 0, note_paths := [], dimension := E.dim, model := none } }

/-- `EmbeddingsManager.batch_generate_embeddings` (embeddings.py:199-244):
per-note generation; a failing note yields a placeholder with a null
embedding instead of aborting the batch. -/
def batch_generate_embeddings (E : Externals) (notes : List Note) : List NoteRec :=
  notes.map fun nt =>
    match generate_note_embedding E nt.filepath nt.content with
    | some r => r
    | none => { embedding := none, hash := "", filepath := nt.filepath, title := "" }

/-- Return value of `build_index`: the `{"success": False, ...}` dict, or the
success dict with `total_notes` and `failed` counts. -/
inductive BuildRet where
  | failure : BuildRet
  | stats : ℕ → ℕ → BuildRet
deriving DecidableEq

/-- Outcome of `build_index`: `ret = none` models the call raising (a failed
`_save_index`), with the post-raise state in `st`. -/
structure BuildOut where
  ret : Option BuildRet
  st : EngineState
deriving DecidableEq

/-- The `valid_embeddings` list of `build_index` (search.py:110-112). -/
def validEmbeddings (E : Externals) (notes : List Note) : List NoteRec :=
  (batch_generate_embeddings E notes).filter (fun r => r.embedding.isSome)

/-- The `embeddings_matrix` of `build_index` (search.py:119-124): one
normalized row per valid embedding, in order. -/
def buildMatrix (E : Externals) (notes : List Note) : List (List ℚ) :=
  (validEmbeddings E notes).map (fun r => E.normalize (r.embedding.getD []))

/-- The metadata dict stored by `build_index` (search.py:134-142). -/
def buildMeta (E : Externals) (st : EngineState) (notes : List Note) : IdxMeta :=
  { total_notes := (validEmbeddings E notes).length
    note_paths := (validEmbeddings E notes).map (fun r => r.filepath)
    dimension := ((buildMatrix E notes).headD []).length
    model := some st.mgr.modelName }

/-- `SemanticSearchEngine.build_index` (search.py:87-153) together with
`_save_index` (search.py:155-171).  `_save_index` writes the index file and
then the metadata file directly; `okIdx` / `okMeta` say whether each write
succeeds, and a failure raises after the in-memory state was already
replaced (and, for a metadata failure, after the index file was already
written). -/
def build_index (E : Externals) (st : EngineState) (notes : List Note)
    (_force okIdx okMeta : Bool) : BuildOut :=
  if (validEmbeddings E notes).isEmpty then { ret := some BuildRet.failure, st := st }
  else
    if okIdx then
      if okMeta then
        { ret := some (BuildRet.stats (validEmbeddings E notes).length
            ((batch_generate_embeddings E notes).length - (validEmbeddings E notes).length))
          st := { st with
            idx := some (buildMatrix E notes)
            metadata := some (buildMeta E st notes)
            idxDisk := DFile.good (buildMatrix E notes)
            metaDisk := DFile.good (buildMeta E st notes) } }
      else
        { ret := none
          st := { st with
            idx := some (buildMatrix E notes)
            metadata := some (buildMeta E st notes)
            idxDisk := DFile.good (buildMatrix E notes) } }
    else
      { ret := none
        st := { st with
          idx := some (buildMatrix E notes)
          metadata := some (buildMeta E st notes) } }

/-- Model of `faiss.IndexFlatIP.search` on an index holding `rows`: the `k`
best (row index, inner product with `q`) pairs in descending score order
(stably, ties by ascending row index), padded to exactly `k` entries with
index `-1`.  FAISS leaves the tie order unspecified; the model fixes one. -/
def faiss_search (rows : List (List ℚ)) (q : List ℚ) (k : ℕ) : List (Int × ℚ) :=
  let scored : List (Int × ℚ) := rows.enum.map (fun p => ((p.1 : Int), dot q p.2))
  let ranked := (sortDesc (fun x => x.2) scored).take k
  ranked ++ List.replicate (k - ranked.length) ((-1 : Int), 0)

/-- One search result dict `{filepath, similarity, title}` (the optional
`snippet` of `include_content=True` is omitted; no claim concerns it). -/
structure Hit where
  filepath : String
  similarity : ℚ
  title : String
deriving DecidableEq

/-- The result dict appended for candidate `(i, s)`:
`{"filepath": note_paths[idx], "similarity": float(similarity),
"title": Path(filepath).stem}`. -/
def mkHit (paths : List String) (i : Int) (s : ℚ) : Hit :=
  { filepath := paths.getD i.toNat ""
    similarity := s
    title := stem (paths.getD i.toNat "") }

/-- The result-building loop shared verbatim by `search` (search.py:213-241)
and `search_by_embedding` (search.py:305-330): skip FAISS `-1` paddings,
skip scores below the threshold, skip entries rejected by `keep` (the folder
filter resp. the `exclude` check), append, and break once `top_k` results
are collected. -/
def resultsLoop (paths : List String) (minSim : ℚ) (keep : String → Bool) (topK : ℕ) :
    List (Int × ℚ) → List Hit → List Hit
  | [], acc => acc
  | (i, s) :: rest, acc =>
    if i = -1 then resultsLoop paths minSim keep topK rest acc
    else if s < minSim then resultsLoop paths minSim keep topK rest acc
    else if keep (paths.getD i.toNat "") then
      if topK ≤ (acc ++ [mkHit paths i s]).length then acc ++ [mkHit paths i s]
      else resultsLoop paths minSim keep topK rest (acc ++ [mkHit paths i s])
    else resultsLoop paths minSim keep topK rest acc

/-- `EmbeddingsManager.generate_embedding` (embeddings.py:125-143): zero
vector for empty/whitespace-only text, else the (already normalized) model
encoding. -/
def generate_embedding (E : Externals) (text : String) : List ℚ :=
  if pyStrip text = "" then List.replicate E.dim 0 else E.encode text

/-- A search outcome: the result list plus the `k` that was passed to
`self._index.search` (`none` when the early-exit returned before querying
the index). -/
structure SearchOut where
  results : List Hit
  requested : Option ℕ
deriving DecidableEq

/-- The folder filter of `search`'s result loop (search.py:223-225):
`if folder and not filepath.startswith(folder): continue`. -/
def folderKeep (folder : Option String) : String → Bool := fun fp =>
  match folder with
  | none => true
  | some f => if f == "" then true else fp.startsWith f

/-- The exclusion filter of `search_by_embedding`'s result loop
(search.py:316-318): `if exclude and filepath == exclude: continue`. -/
def excludeKeep (exclude : Option String) : String → Bool := fun fp =>
  match exclude with
  | none => true
  | some s => if s == "" then true else !(fp == s)

/-- `SemanticSearchEngine.search` (search.py:173-242). -/
def search (E : Externals) (st : EngineState) (query : String) (topK : ℕ)
    (minSim : ℚ) (folder : Option String) : SearchOut :=
  match st.metadata with
  | none => { results := [], requested := none }
  | some m =>
    if m.total_notes = 0 then { results := [], requested := none }
    else
      { results := resultsLoop m.note_paths minSim (folderKeep folder) topK
          (faiss_search (st.idx.getD []) (E.normalize (generate_embedding E query))
            (if truthyStr folder then topK * 3 else topK)) []
        requested := some (if truthyStr folder then topK * 3 else topK) }

/-- `SemanticSearchEngine.search_by_embedding` (search.py:271-331). -/
def search_by_embedding (E : Externals) (st : EngineState) (v : List ℚ) (topK : ℕ)
    (minSim : ℚ) (exclude : Option String) : SearchOut :=
  match st.metadata with
  | none => { results := [], requested := none }
  | some m =>
    if m.total_notes = 0 then { results := [], requested := none }
    else
      { results := resultsLoop m.note_paths minSim (excludeKeep exclude) topK
          (faiss_search (st.idx.getD []) (E.normalize v)
            (if truthyStr exclude then topK + 1 else topK)) []
        requested := some (if truthyStr exclude then topK + 1 else topK) }

/-- `SemanticSearchEngine.search_by_note` (search.py:244-269): refresh the
note's own vector via the manager (which may raise) and delegate to
`search_by_embedding` with `top_k + 1` and `exclude=filepath`. -/
def search_by_note (E : Externals) (st : EngineState) (fp content : String)
    (topK : ℕ) (minSim : ℚ) (ok : Bool) : Option SearchOut × EngineState :=
  match (update_embedding E st.mgr fp content false ok).ret with
  | none => (none, { st with mgr := (update_embedding E st.mgr fp content false ok).st })
  | some v =>
    (some (search_by_embedding E
        { st with mgr := (update_embedding E st.mgr fp content false ok).st }
        v (topK + 1) minSim (some fp)),
     { st with mgr := (update_embedding E st.mgr fp content false ok).st })

/-! ## Persistence as file-operation traces (for the atomicity claim)

`save_cache` and `_save_index` are additionally modelled at the level of the
sequence of file operations they issue, to reason about what a crash in the
middle of a write can leave on disk. -/

/-- Kernel-friendly `String.take`. -/
def strTake (n : ℕ) (s : String) : String := ⟨s.toList.take n⟩

/-- One file operation. `writeTmp t d` writes `d` to the temporary sibling
of `t`; `renameTmp t` atomically renames that sibling over `t`;
`writeLive t d` opens `t` itself for writing and writes `d` into it. -/
inductive FsOp where
  | writeTmp : String → String → FsOp
  | renameTmp : String → FsOp
  | writeLive : String → String → FsOp
deriving DecidableEq

/-- The operations issued by `EmbeddingsManager.save_cache`
(embeddings.py:308-315): write the serialized cache to a temporary file,
then `Path.replace` it over the live file. -/
def save_cache_ops (cacheData : String) : List FsOp :=
  [FsOp.writeTmp "embeddings-cache.json" cacheData,
   FsOp.renameTmp "embeddings-cache.json"]

/-- The operations issued by `SemanticSearchEngine._save_index`
(search.py:155-171): `faiss.write_index` writes the live index file
directly, then `open(self.metadata_file, "w")` truncates and writes the live
metadata file directly.  No temporary file, no rename. -/
def save_index_ops (indexData metaData : String) : List FsOp :=
  [FsOp.writeLive "faiss-index.bin" indexData,
   FsOp.writeLive "index-metadata.json" metaData]

/-- An operation is of the atomic write-then-rename discipline iff it is not
a direct write to a live file. -/
def isAtomicOp : FsOp → Bool
  | FsOp.writeLive _ _ => false
  | _ => true

/-- A writer follows the atomic write-then-rename discipline iff it never
writes a live file directly. -/
def atomicOnly (ops : List FsOp) : Bool := ops.all isAtomicOp

/-- Completed effect of one operation on the file system (a map from file
name to contents). -/
def applyOp (fs : String → Option String) : FsOp → (String → Option String)
  | FsOp.writeTmp t d => fun x => if x = t ++ ".tmp" then some d else fs x
  | FsOp.renameTmp t => fun x =>
      if x = t then fs (t ++ ".tmp") else if x = t ++ ".tmp" then none else fs x
  | FsOp.writeLive t d => fun x => if x = t then some d else fs x

/-- Effect of an operation interrupted by a crash after `len` bytes: an
interrupted write leaves a prefix of the data in the written file; an
interrupted rename is atomic, so it either happened or (as modelled) did
not. -/
def applyPartial (fs : String → Option String) (op : FsOp) (len : ℕ) :
    String → Option String :=
  match op with
  | FsOp.writeTmp t d => fun x => if x = t ++ ".tmp" then some (strTake len d) else fs x
  | FsOp.renameTmp _ => fs
  | FsOp.writeLive t d => fun x => if x = t then some (strTake len d) else fs x

/-- Run a trace, crashing during operation number `k` (0-based) with `len`
bytes of it completed; if `k` is past the end, the whole trace ran. -/
def crashRun (fs : String → Option String) (ops : List FsOp) (k len : ℕ) :
    String → Option String :=
  match ops, k with
  | [], _ => fs
  | op :: _, 0 => applyPartial fs op len
  | op :: rest, k' + 1 => crashRun (applyOp fs op) rest k' len

/-! ## Concrete states used by witnesses and counterexamples -/

/-- Index metadata persisted by a different embedding model. -/
def c5meta : IdxMeta :=
  { total_notes := 1, note_paths := ["a.md"], dimension := 1, model := some "other-model" }

/-- Engine state with a persisted index+metadata pair whose stored model
differs from the active model `"m"` (of `wSt`). -/
def c5st : EngineState :=
  { mgr := wSt, idx := none, metadata := none,
    idxDisk := DFile.good [[1]], metaDisk := DFile.good c5meta }

/-- A built engine state over three one-dimensional notes. -/
def c8st : EngineState :=
  { mgr := wSt
    idx := some [[1], [1], [1]]
    metadata := some
      { total_notes := 3, note_paths := ["A.md", "B.md", "C.md"], dimension := 1,
        model := some "m" }
    idxDisk := DFile.absent
    metaDisk := DFile.absent }

/-- Default `NoteRec` used only as a `getD` fallback in theorem statements. -/
def dNR : NoteRec := { embedding := none, hash := "", filepath := "", title := "" }

/-- Externals whose note-embedding generation always fails. -/
def wEfail : Externals :=
  { encode := fun _ => [1]
    dim := 1
    normalize := fun v => v
    shaHash := fun s => s
    noteVec := fun _ _ => none
    noteTitle := fun _ _ => "t"
    yamlOk := fun _ => true }

/-- A completely fresh engine state. -/
def engFresh : EngineState :=
  { mgr := wSt, idx := none, metadata := none,
    idxDisk := DFile.absent, metaDisk := DFile.absent }

/-! ## LinkSuggestionEngine.find_unlinked_mentions (links.py) -/

/-- Split a character list at the first occurrence of `sep`, returning the
part before and the part after. -/
def splitFirst (sep : List Char) : List Char → Option (List Char × List Char)
  | [] => if sep.isPrefixOf ([] : List Char) then some ([], []) else none
  | c :: cs =>
    if sep.isPrefixOf (c :: cs) then some ([], (c :: cs).drop sep.length)
    else (splitFirst sep cs).map (fun p => (c :: p.1, p.2))

/-- Python `s.split(sep, 2)`: at most three parts. -/
def split3 (sep s : List Char) : List (List Char) :=
  match splitFirst sep s with
  | none => [s]
  | some (a, r1) =>
    match splitFirst sep r1 with
    | none => [a, r1]
    | some (b, r2) => [a, b, r2]

/-- `LinkSuggestionEngine._extract_frontmatter` (links.py:233-249), returning
only the body: when the content starts with `---` and `content.split("---", 2)`
has three parts and the front-matter block parses as yaml, the body is the
stripped third part; in every other case (including a yaml error, which is
caught) the whole content. -/
def fmBody (E : Externals) (content : String) : String :=
  if "---".toList.isPrefixOf content.toList then
    match split3 "---".toList content.toList with
    | [_, b, r2] => if E.yamlOk ⟨b⟩ then ⟨pyStripChars r2⟩ else content
    | _ => content
  else content

/-- One attempt of the wiki-link regex `\[\[([^\]|]+)(?:\|[^\]]+)?\]\]` at
the head of `s`: on success, the first capture group and the total match
length.  The character classes exclude `]` (and `|` in group 1), so the
greedy `takeWhile`s coincide with the regex engine's backtracking search. -/
def tryLink (s : List Char) : Option (List Char × ℕ) :=
  match s with
  | '[' :: '[' :: t =>
    if (t.takeWhile (fun c => !(c == ']' || c == '|'))).isEmpty then none
    else
      match t.drop (t.takeWhile (fun c => !(c == ']' || c == '|'))).length with
      | '|' :: t3 =>
        if (t3.takeWhile (fun c => !(c == ']'))).isEmpty then none
        else
          match t3.drop (t3.takeWhile (fun c => !(c == ']'))).length with
          | ']' :: ']' :: _ =>
            some (t.takeWhile (fun c => !(c == ']' || c == '|')),
              (t.takeWhile (fun c => !(c == ']' || c == '|'))).length +
                (t3.takeWhile (fun c => !(c == ']'))).length + 5)
          | _ => none
      | ']' :: ']' :: _ =>
        some (t.takeWhile (fun c => !(c == ']' || c == '|')),
          (t.takeWhile (fun c => !(c == ']' || c == '|'))).length + 4)
      | _ => none
  | _ => none

/-- The `re.finditer` scan of `_extract_existing_links` (links.py:208-231):
left-to-right, non-overlapping; `blocked` counts the positions still covered
by the previous match.  Each captured group is `.strip()`ped and collected. -/
def extractLinksGo : ℕ → List Char → List String
  | _, [] => []
  | blocked, c :: cs =>
    if blocked = 0 then
      match tryLink (c :: cs) with
      | some (g1, len) => (⟨pyStripChars g1⟩ : String) :: extractLinksGo (len - 1) cs
      | none => extractLinksGo 0 cs
    else extractLinksGo (blocked - 1) cs

/-- `LinkSuggestionEngine._extract_existing_links` (links.py:208-231): the
set of wiki-link targets appearing in the content (as a list; only
membership is ever used). -/
def extractLinks (content : String) : List String := extractLinksGo 0 content.toList

/-- Python's `\w` (ASCII part): letters, digits, underscore. -/
def isWordChar (c : Char) : Bool := c.isAlphanum || c == '_'

/-- `\w`-ness of a char just outside the string boundary is false. -/
def isWordO : Option Char → Bool
  | none => false
  | some c => isWordChar c

/-- Case-insensitive equality of character lists (`re.IGNORECASE`). -/
def lowerEq (a b : List Char) : Bool := a.map Char.toLower == b.map Char.toLower

/-- Does the pattern `\b<t>\b` (with `re.IGNORECASE`, `t` literal via
`re.escape`) match at the start of `s`, where `prev` is the character just
before `s`?  `\b` holds between two positions iff exactly one of them holds
a word character. -/
def matchAt (t : List Char) (prev : Option Char) (s : List Char) : Bool :=
  decide (1 ≤ t.length) && decide (t.length ≤ s.length) &&
  lowerEq (s.take t.length) t &&
  (isWordO prev != isWordO s.head?) &&
  (isWordO (s.take t.length).getLast? != isWordO (s.drop t.length).head?)

/-- The `re.finditer(\b<t>\b, body, re.IGNORECASE)` match count:
left-to-right, non-overlapping (`blocked` covers the rest of the previous
match), `prev` is the previous character for the `\b` test. -/
def countOccGo (t : List Char) : ℕ → Option Char → List Char → ℕ
  | _, _, [] => 0
  | blocked, prev, c :: cs =>
    if blocked = 0 && matchAt t prev (c :: cs) then
      1 + countOccGo t (t.length - 1) (some c) cs
    else countOccGo t (blocked - 1) (some c) cs

/-- Number of whole-word case-insensitive occurrences of `t` in `body`. -/
def countOcc (t body : List Char) : ℕ := countOccGo t 0 none body

/-- One entry of the `find_unlinked_mentions` result (the `mention_text` and
`context` fields are never consulted by any claim and are omitted). -/
structure Mention where
  filepath : String
  title : String
  occurrences : ℕ
deriving DecidableEq

/-- The `note_titles` dict of `find_unlinked_mentions` (links.py:131):
`{Path(p).stem: p for p in all_paths if p != filepath}` — first-occurrence
key order, last value wins. -/
def noteTitlesMap (all_paths : List String) (fp : String) : List (String × String) :=
  (all_paths.filter (fun p => !(p == fp))).foldl (fun acc p => assocSet acc (stem p) p) []

/-- `LinkSuggestionEngine.find_unlinked_mentions` (links.py:112-170). -/
def find_unlinked_mentions (E : Externals) (st : EngineState) (fp content : String) :
    List Mention :=
  match st.metadata with
  | none => []
  | some meta =>
    sortDesc (fun mn => (mn.occurrences : ℚ))
      ((noteTitlesMap meta.note_paths fp).filterMap (fun tp =>
        if tp.2 ∈ extractLinks content then none
        else
          if countOcc tp.1.toList (fmBody E content).toList = 0 then none
          else some { filepath := tp.2, title := tp.1
                      occurrences := countOcc tp.1.toList (fmBody E content).toList }))

/-- Engine state indexing the two notes of spec scenario D. -/
def c7st : EngineState :=
  { mgr := wSt
    idx := some [[1], [1]]
    metadata := some
      { total_notes := 2, note_paths := ["P.md", "Q.md"], dimension := 1,
        model := some "m" }
    idxDisk := DFile.absent
    metaDisk := DFile.absent }

/-! ## RelationshipAnalyzer (relationships.py) -/

/-- The vector that `get_all_embeddings` (search.py:366-386) associates with
a path: the cached record's embedding when present and non-null and nonempty
(Python's `if embedding:` — an empty list is falsy). -/
def embOf (E : Externals) (st : EngineState) (fp : String) : Option (List ℚ) :=
  match assocFind (load_cache E st.mgr).1.notes fp with
  | none => none
  | some r =>
    match r.embedding with
    | none => none
    | some e => if e.isEmpty then none else some e

/-- Membership of `fp` in the `get_all_embeddings` dict: the dict is built
over `metadata["note_paths"]`, keeping paths with a usable cached vector. -/
def hasEmb (E : Externals) (st : EngineState) (fp : String) : Bool :=
  (match st.metadata with
   | none => false
   | some m => m.note_paths.contains fp) && (embOf E st fp).isSome

/-- The normalized rows (`embeddings_list` then `faiss.normalize_L2`) that
`get_similarity_matrix` (search.py:388-423) assembles for `fps`: paths
missing from the embeddings dict are silently dropped. -/
def simRows (E : Externals) (st : EngineState) (fps : List String) : List (List ℚ) :=
  (fps.filterMap (fun fp => if hasEmb E st fp then embOf E st fp else none)).map
    E.normalize

/-- `SemanticSearchEngine.get_similarity_matrix` (search.py:388-423) with an
explicit path list (as in all its relationship-analysis call sites). -/
def get_similarity_matrix (E : Externals) (st : EngineState) (fps : List String) :
    List (List ℚ) :=
  if fps.isEmpty then []
  else if (simRows E st fps).isEmpty then []
  else (simRows E st fps).map (fun r => (simRows E st fps).map (fun r2 => dot r r2))

/-- The folder filtering shared by the relationship analyses
(`if folder: all_paths = [p for p in all_paths if p.startswith(folder)]`). -/
def applyFolder (paths : List String) (folder : Option String) : List String :=
  if truthyStr folder then paths.filter (fun p => p.startsWith (folder.getD "")) else paths

/-- The `related` list of `get_vault_graph` (relationships.py:216-221) for
row `i`: every other path whose similarity entry meets the threshold. -/
def related (all_paths : List String) (S : List (List ℚ)) (θ : ℚ) (i : ℕ) :
    List String :=
  all_paths.enum.filterMap (fun jq =>
    if jq.1 ≠ i ∧ θ ≤ (S.getD i []).getD jq.1 0 then some jq.2 else none)

/-- The adjacency dict of `get_vault_graph` (`graph[filepath] = related`). -/
def buildGraph (all_paths : List String) (S : List (List ℚ)) (θ : ℚ) :
    List (String × List String) :=
  all_paths.enum.foldl (fun g ip => assocSet g ip.2 (related all_paths S θ ip.1)) []

/-- `RelationshipAnalyzer.get_vault_graph` (relationships.py:183-224).
`none` models the `IndexError` raised when the similarity matrix has fewer
rows than there are paths (some path had no cached vector) and the double
loop indexes past it — which happens exactly when the matrix is nonempty,
smaller than the path list, and at least two paths exist. -/
def get_vault_graph (E : Externals) (st : EngineState) (θ : ℚ)
    (folder : Option String) : Option (List (String × List String)) :=
  match st.metadata with
  | none => some []
  | some m =>
    if (applyFolder m.note_paths folder).isEmpty then some []
    else if (get_similarity_matrix E st (applyFolder m.note_paths folder)).isEmpty
      then some []
    else if (get_similarity_matrix E st (applyFolder m.note_paths folder)).length <
        (applyFolder m.note_paths folder).length ∧
        2 ≤ (applyFolder m.note_paths folder).length then none
    else some (buildGraph (applyFolder m.note_paths folder)
      (get_similarity_matrix E st (applyFolder m.note_paths folder)) θ)

/-- The boolean adjacency matrix `similarity_matrix >= min_similarity` of
`analyze_note_clusters` (relationships.py:92). -/
def adjOf (S : List (List ℚ)) (θ : ℚ) : ℕ → ℕ → Bool :=
  fun i j => decide (θ ≤ (S.getD i []).getD j 0)

/-- `RelationshipAnalyzer._find_connected_components`'s recursive `dfs`
(relationships.py:143-150), with the per-call state made explicit:
`dfsGo adj n fuel node nbs (visited, component)` is the neighbor loop of
`dfs(node, component)` over the remaining neighbors `nbs`; visiting a
neighbor `nb` marks it and recursively loops over `range n`.  `fuel` bounds
the recursion depth; it never runs out when `fuel ≥ #unvisited`
(`dfsGo_spec` below), and `findComponents` supplies `fuel = n`. -/
def dfsGo (adj : ℕ → ℕ → Bool) (n : ℕ) (fuel node : ℕ) (nbs : List ℕ)
    (s : List ℕ × List ℕ) : List ℕ × List ℕ :=
  match nbs with
  | [] => s
  | nb :: rest =>
    if adj node nb && !(s.1.contains nb) then
      match fuel with
      | 0 => dfsGo adj n 0 node rest s
      | fuel' + 1 =>
        dfsGo adj n (fuel' + 1) node rest
          (dfsGo adj n fuel' nb (List.range n) (nb :: s.1, s.2 ++ [nb]))
    else dfsGo adj n fuel node rest s
termination_by (fuel, nbs)

/-- `RelationshipAnalyzer._find_connected_components`
(relationships.py:129-158): iterate the nodes; each unvisited node starts a
component (it is marked and appended before its neighbor loop runs). -/
def findComponents (adj : ℕ → ℕ → Bool) (n : ℕ) : List (List ℕ) :=
  ((List.range n).foldl
    (fun acc node =>
      if acc.1.contains node then acc
      else
        ((dfsGo adj n n node (List.range n) (node :: acc.1, [node])).1,
         acc.2 ++ [(dfsGo adj n n node (List.range n) (node :: acc.1, [node])).2]))
    ([], [])).2

/-- One cluster dict of `analyze_note_clusters` (`avg_similarity` and
`theme` are never consulted by the claims and are omitted). -/
structure Cluster where
  size : ℕ
  notes : List String
deriving DecidableEq

/-- `RelationshipAnalyzer.analyze_note_clusters` (relationships.py:54-127):
threshold the similarity matrix, take connected components over its row
indices, drop singletons, map indices to paths, sort by size descending. -/
def analyze_note_clusters (E : Externals) (st : EngineState) (θ : ℚ)
    (folder : Option String) : List Cluster :=
  match st.metadata with
  | none => []
  | some m =>
    if (applyFolder m.note_paths folder).isEmpty then []
    else if (get_similarity_matrix E st (applyFolder m.note_paths folder)).isEmpty
      then []
    else
      sortDesc (fun cl => (cl.size : ℚ))
        (((findComponents
            (adjOf (get_similarity_matrix E st (applyFolder m.note_paths folder)) θ)
            (get_similarity_matrix E st (applyFolder m.note_paths folder)).length).filter
          (fun comp => 2 ≤ comp.length)).map
          (fun comp =>
            { size := comp.length
              notes := comp.map
                (fun i => (applyFolder m.note_paths folder).getD i "") }))

/-- The `note_to_cluster` map of `find_bridge_notes`
(relationships.py:250-253): last write wins. -/
def noteCluster (clusters : List Cluster) (note : String) : Option ℕ :=
  clusters.enum.foldl (fun acc ic => if note ∈ ic.2.notes then some ic.1 else acc) none

/-- One bridge dict of `find_bridge_notes`. -/
structure Bridge where
  filepath : String
  title : String
  home_cluster : ℕ
  bridges_to : List ℕ
  num_connections : ℕ
deriving DecidableEq

/-- The distinct non-home clusters among a note's connections
(`connected_clusters`, a Python set, modelled as a deduplicated list). -/
def connectedClusters (clusters : List Cluster) (cid : ℕ) (conns : List String) :
    List ℕ :=
  ((conns.filterMap (noteCluster clusters)).filter (fun c => c != cid)).dedup

/-- `RelationshipAnalyzer.find_bridge_notes` (relationships.py:226-290).
`none` propagates the `IndexError` of `get_vault_graph`. -/
def find_bridge_notes (E : Externals) (st : EngineState) (θ : ℚ)
    (folder : Option String) : Option (List Bridge) :=
  if (analyze_note_clusters E st θ folder).length < 2 then some []
  else
    match get_vault_graph E st θ folder with
    | none => none
    | some graph =>
      some (sortDesc (fun b => (b.bridges_to.length : ℚ))
        (graph.filterMap (fun nc =>
          if nc.2.isEmpty then none
          else
            match noteCluster (analyze_note_clusters E st θ folder) nc.1 with
            | none => none
            | some cid =>
              if 2 ≤ (connectedClusters (analyze_note_clusters E st θ folder)
                  cid nc.2).length then
                some { filepath := nc.1
                       title := stem nc.1
                       home_cluster := cid
                       bridges_to := connectedClusters
                         (analyze_note_clusters E st θ folder) cid nc.2
                       num_connections := nc.2.length }
              else none)))

/-! ### DFS correctness -/

/-- Number of nodes in `range n` not yet visited. -/
def unvis (n : ℕ) (v : List ℕ) : ℕ :=
  ((List.range n).filter (fun x => !(v.contains x))).length

/-- `_find_connected_components`'s outer loop in direct-recursion form
(used to reason about `findComponents` by induction on the node list). -/
def fcRun (adj : ℕ → ℕ → Bool) (n : ℕ) : List ℕ → List ℕ → List (List ℕ) →
    List ℕ × List (List ℕ)
  | [], v, comps => (v, comps)
  | node :: l, v, comps =>
    if v.contains node then fcRun adj n l v comps
    else fcRun adj n l (dfsGo adj n n node (List.range n) (node :: v, [node])).1
      (comps ++ [(dfsGo adj n n node (List.range n) (node :: v, [node])).2])

/-- The normalized row that the embeddings dict associates with a path
(defined whenever `hasEmb` holds; junk `[]` otherwise). -/
def wvec (E : Externals) (st : EngineState) (fp : String) : List ℚ :=
  E.normalize ((embOf E st fp).getD [])

def c9meta : IdxMeta :=
  { total_notes := 3, note_paths := ["A.md", "B.md", "C.md"], dimension := 1,
    model := some "m" }

/-! ## Theorems -/

theorem dot_comm (u v : List ℚ) : dot u v = dot v u := by
  unfold dot
  induction u generalizing v with
  | nil => cases v <;> simp [List.zipWith]
  | cons a u ih =>
    cases v with
    | nil => simp [List.zipWith]
    | cons b v => simp [List.zipWith, ih, mul_comm]

theorem dot_zero_left : ∀ (u v : List ℚ), isZero u = true → dot u v = 0
  | [], _, _ => by simp [dot]
  | _ :: _, [], _ => by simp [dot]
  | a :: u, b :: v, h => by
    simp only [isZero, List.all_cons, Bool.and_eq_true, decide_eq_true_eq] at h
    have ih := dot_zero_left u v (by simp [isZero, h.2])
    simp only [dot, List.zipWith, List.sum_cons, h.1, zero_mul, zero_add] at ih ⊢
    exact ih

theorem dot_zero_right (u v : List ℚ) (h : isZero v = true) : dot u v = 0 := by
  rw [dot_comm]; exact dot_zero_left v u h

theorem mem_insDesc (key : α → ℚ) (x : α) (l : List α) (a : α) :
    a ∈ insDesc key x l ↔ a = x ∨ a ∈ l := by
  induction l with
  | nil => simp [insDesc]
  | cons y ys ih =>
    unfold insDesc
    by_cases h : key x < key y
    · simp only [if_pos h, List.mem_cons, ih]
      tauto
    · simp [if_neg h]

theorem mem_sortDesc (key : α → ℚ) (l : List α) (a : α) :
    a ∈ sortDesc key l ↔ a ∈ l := by
  induction l with
  | nil => simp [sortDesc]
  | cons x xs ih => simp [sortDesc, mem_insDesc, ih]

theorem pairwise_insDesc (key : α → ℚ) (x : α) (l : List α)
    (h : l.Pairwise (fun a b => key b ≤ key a)) :
    (insDesc key x l).Pairwise (fun a b => key b ≤ key a) := by
  induction l with
  | nil => simp [insDesc]
  | cons y ys ih =>
    unfold insDesc
    rcases List.pairwise_cons.mp h with ⟨hy, hys⟩
    by_cases hk : key x < key y
    · rw [if_pos hk]
      refine List.pairwise_cons.mpr ⟨?_, ih hys⟩
      intro b hb
      rcases (mem_insDesc key x ys b).mp hb with rfl | hb
      · exact le_of_lt hk
      · exact hy b hb
    · rw [if_neg hk]
      refine List.pairwise_cons.mpr ⟨?_, h⟩
      intro b hb
      rcases List.mem_cons.mp hb with rfl | hb
      · exact not_lt.mp hk
      · exact le_trans (hy b hb) (not_lt.mp hk)

theorem pairwise_sortDesc (key : α → ℚ) (l : List α) :
    (sortDesc key l).Pairwise (fun a b => key b ≤ key a) := by
  induction l with
  | nil => simp [sortDesc]
  | cons x xs ih => exact pairwise_insDesc key x _ ih

theorem assocFind_assocSet_self (l : List (String × α)) (k : String) (v : α) :
    assocFind (assocSet l k v) k = some v := by
  induction l with
  | nil => simp [assocSet, assocFind]
  | cons e rest ih =>
    obtain ⟨k', v'⟩ := e
    unfold assocSet
    by_cases h : k' = k
    · simp [h, assocFind]
    · simp [h, assocFind, ih]

theorem assocFind_assocSet_other (l : List (String × α)) (k k' : String) (v : α)
    (h : k' ≠ k) : assocFind (assocSet l k v) k' = assocFind l k' := by
  induction l with
  | nil => simp [assocSet, assocFind, Ne.symm h]
  | cons e rest ih =>
    obtain ⟨k₀, v₀⟩ := e
    unfold assocSet
    by_cases h0 : k₀ = k
    · subst h0
      simp [assocFind, Ne.symm h]
    · simp only [if_neg h0]
      unfold assocFind
      by_cases h1 : k₀ = k'
      · simp [h1]
      · simp [h1, ih]

theorem mem_assocSet (l : List (String × α)) (k : String) (v : α) (e : String × α)
    (h : e ∈ assocSet l k v) : e ∈ l ∨ e = (k, v) := by
  induction l with
  | nil => simp [assocSet] at h; tauto
  | cons e0 rest ih =>
    obtain ⟨k', v'⟩ := e0
    unfold assocSet at h
    by_cases h0 : k' = k
    · simp only [if_pos h0, List.mem_cons] at h
      rcases h with rfl | h
      · tauto
      · exact Or.inl (List.mem_cons_of_mem _ h)
    · simp only [if_neg h0, List.mem_cons] at h
      rcases h with rfl | h
      · exact Or.inl (List.mem_cons_self _ _)
      · rcases ih h with h | h
        · exact Or.inl (List.mem_cons_of_mem _ h)
        · tauto

theorem assocFind_isSome_assocSet (l : List (String × α)) (k k' : String) (v : α)
    (h : (assocFind l k').isSome ∨ k' = k) :
    (assocFind (assocSet l k v) k').isSome := by
  by_cases hk : k' = k
  · subst hk; simp [assocFind_assocSet_self]
  · rw [assocFind_assocSet_other l k k' v hk]
    tauto

theorem assocFind_mem (l : List (String × α)) (k : String) (v : α)
    (h : assocFind l k = some v) : (k, v) ∈ l := by
  induction l with
  | nil => simp [assocFind] at h
  | cons e rest ih =>
    obtain ⟨k', v'⟩ := e
    unfold assocFind at h
    by_cases h0 : k' = k
    · rw [if_pos h0, Option.some_inj] at h
      subst h0; subst h
      exact List.mem_cons_self _ _
    · rw [if_neg h0] at h
      exact List.mem_cons_of_mem _ (ih h)

/-- Every element of a list with two distinct members has length ≥ 2. -/
theorem two_le_length_of_mem_ne {l : List α} {x y : α}
    (hx : x ∈ l) (hy : y ∈ l) (hxy : x ≠ y) : 2 ≤ l.length := by
  cases l with
  | nil => simp at hx
  | cons a t =>
    cases t with
    | nil =>
      simp only [List.mem_singleton] at hx hy
      exact absurd (hx.trans hy.symm) hxy
    | cons b t => simp only [List.length_cons]; omega

/-! ### Lemmas about the manager state machine -/

theorem load_cache_state (E : Externals) (st : MgrState) :
    (load_cache E st).2.cacheMem = some (load_cache E st).1 ∧
    (load_cache E st).2.cacheDisk = st.cacheDisk ∧
    (load_cache E st).2.modelName = st.modelName := by
  unfold load_cache
  match h : st.cacheMem with
  | some c => simp [h]
  | none => simp [h]

theorem load_cache_of_mem (E : Externals) (st : MgrState) (c : EmbCache)
    (h : st.cacheMem = some c) : load_cache E st = (c, st) := by
  unfold load_cache
  rw [h]

theorem get_cached_embedding_state (E : Externals) (st : MgrState) (fp h : String) :
    (get_cached_embedding E st fp h).2 = (load_cache E st).2 := by
  unfold get_cached_embedding
  match hf : assocFind (load_cache E st).1.notes fp with
  | none => simp [hf]
  | some r =>
    by_cases hh : r.hash = h
    · match he : r.embedding with
      | none => simp [hf, hh, he]
      | some e => simp [hf, hh, he]
    · simp [hf, hh]

/-- A cache state in which `fp` maps to a record with hash `h` and vector
`v` answers `get_cached_embedding` with `v`. -/
theorem get_cached_embedding_hit (E : Externals) (st : MgrState) (fp h : String)
    (c : EmbCache) (r : NoteRec) (hc : st.cacheMem = some c)
    (hf : assocFind c.notes fp = some r) (hh : r.hash = h) (v : List ℚ)
    (he : r.embedding = some v) :
    get_cached_embedding E st fp h = (some v, st) := by
  unfold get_cached_embedding
  simp [load_cache_of_mem E st c hc, hf, hh, he]

/-- Evaluation of `update_embedding` on a cache hit. -/
theorem update_embedding_hit_eq (E : Externals) (st : MgrState) (fp content : String)
    (ok : Bool) (e : List ℚ) (st1 : MgrState)
    (h1 : get_cached_embedding E st fp (E.shaHash content) = (some e, st1)) :
    update_embedding E st fp content false ok =
      { ret := some e, st := st1, computed := false, persisted := false } := by
  unfold update_embedding
  simp only [Bool.false_eq_true, if_false, h1]

/-- Evaluation of `update_embedding` on a cache miss with failing
generation. -/
theorem update_embedding_genfail_eq (E : Externals) (st : MgrState) (fp content : String)
    (ok : Bool) (st1 : MgrState)
    (h1 : get_cached_embedding E st fp (E.shaHash content) = (none, st1))
    (hg : generate_note_embedding E fp content = none) :
    update_embedding E st fp content false ok =
      { ret := none, st := st1, computed := true, persisted := false } := by
  unfold update_embedding
  simp only [Bool.false_eq_true, if_false, h1, hg]

/-- Evaluation of `update_embedding` on a cache miss with successful
generation: the record is put into the in-memory cache *before* the persist
step, and the persist outcome decides whether the call returns or raises. -/
theorem update_embedding_miss_ok_eq (E : Externals) (st : MgrState) (fp content : String)
    (st1 : MgrState) (r : NoteRec)
    (h1 : get_cached_embedding E st fp (E.shaHash content) = (none, st1))
    (hg : generate_note_embedding E fp content = some r) :
    update_embedding E st fp content false true =
      { ret := r.embedding
        st :=
          { modelName := (load_cache E st1).2.modelName
            cacheMem := some { (load_cache E st1).1 with
              notes := assocSet (load_cache E st1).1.notes fp r }
            cacheDisk := DFile.good { (load_cache E st1).1 with
              notes := assocSet (load_cache E st1).1.notes fp r } }
        computed := true
        persisted := true } := by
  unfold update_embedding
  simp only [Bool.false_eq_true, if_false, h1, hg]
  unfold save_cache
  simp only [if_pos rfl]
  match he : r.embedding with
  | none => rfl
  | some e => rfl

theorem update_embedding_miss_fail_eq (E : Externals) (st : MgrState) (fp content : String)
    (st1 : MgrState) (r : NoteRec)
    (h1 : get_cached_embedding E st fp (E.shaHash content) = (none, st1))
    (hg : generate_note_embedding E fp content = some r) :
    update_embedding E st fp content false false =
      { ret := none
        st :=
          { modelName := (load_cache E st1).2.modelName
            cacheMem := some { (load_cache E st1).1 with
              notes := assocSet (load_cache E st1).1.notes fp r }
            cacheDisk := (load_cache E st1).2.cacheDisk }
        computed := true
        persisted := false } := by
  unfold update_embedding
  simp only [Bool.false_eq_true, if_false, h1, hg]
  unfold save_cache
  rfl

theorem generate_note_embedding_some (E : Externals) (fp content : String)
    (w : List ℚ) (hv : E.noteVec fp content = some w) :
    generate_note_embedding E fp content = some
      { embedding := some w, hash := E.shaHash content, filepath := fp,
        title := E.noteTitle fp content } := by
  simp [generate_note_embedding, hv]

theorem generate_note_embedding_inv (E : Externals) (fp content : String)
    (r : NoteRec) (hg : generate_note_embedding E fp content = some r) :
    ∃ w, E.noteVec fp content = some w ∧
      r = { embedding := some w, hash := E.shaHash content, filepath := fp,
            title := E.noteTitle fp content } := by
  unfold generate_note_embedding at hg
  match hv : E.noteVec fp content with
  | none => rw [hv] at hg; simp at hg
  | some w =>
    rw [hv] at hg
    rw [Option.map_some', Option.some_inj] at hg
    exact ⟨w, rfl, hg.symm⟩

theorem get_cached_embedding_inv (E : Externals) (st : MgrState) (fp h : String)
    (e : List ℚ) (st1 : MgrState)
    (hc : get_cached_embedding E st fp h = (some e, st1)) :
    st1 = (load_cache E st).2 ∧
    ∃ r, assocFind (load_cache E st).1.notes fp = some r ∧
      r.hash = h ∧ r.embedding = some e := by
  unfold get_cached_embedding at hc
  match hf : assocFind (load_cache E st).1.notes fp with
  | none => rw [hf] at hc; simp at hc
  | some r =>
    rw [hf] at hc
    by_cases hh : r.hash = h
    · match he : r.embedding with
      | none => simp [hh, he] at hc
      | some e' =>
        simp only [hh, ne_eq, not_true_eq_false, if_false, he, Prod.mk.injEq,
          Option.some.injEq] at hc
        exact ⟨hc.2.symm, r, rfl, hh, by rw [he, hc.1]⟩
    · simp only [ne_eq, hh, not_false_eq_true, if_true, Prod.mk.injEq] at hc
      exact absurd hc.1 (by simp)

/-- Claim C2: caching in `update_embedding` is idempotent, and a miss
regenerates, caches, persists and returns the new vector.

(1) If a first call with `force=False` returns a vector `v`, a second call
with the identical `(path, content)` pair and `force=False` returns the same
`v` and is a cache hit performing no new embedding computation.
(2) If no cached record with a matching content hash exists, the call
(with a succeeding persistence write) computes a new embedding, returns it,
writes the new record into the in-memory cache, and persists that cache to
disk. -/
theorem C2_caching_idempotent (E : Externals) (st : MgrState) (fp content : String)
    (ok1 ok2 : Bool) :
    (∀ v, (update_embedding E st fp content false ok1).ret = some v →
      (update_embedding E (update_embedding E st fp content false ok1).st
          fp content false ok2).ret = some v ∧
      (update_embedding E (update_embedding E st fp content false ok1).st
          fp content false ok2).computed = false) ∧
    ((get_cached_embedding E st fp (E.shaHash content)).1 = none →
      ∀ w, E.noteVec fp content = some w →
        (update_embedding E st fp content false true).ret = some w ∧
        (update_embedding E st fp content false true).computed = true ∧
        (update_embedding E st fp content false true).persisted = true ∧
        ∃ c, (update_embedding E st fp content false true).st.cacheMem = some c ∧
          (update_embedding E st fp content false true).st.cacheDisk = DFile.good c ∧
          assocFind c.notes fp = some
            { embedding := some w, hash := E.shaHash content, filepath := fp,
              title := E.noteTitle fp content }) := by
  constructor
  · intro v hret
    rcases hcall : get_cached_embedding E st fp (E.shaHash content) with ⟨o, st1⟩
    match o with
    | some e =>
      rw [update_embedding_hit_eq E st fp content ok1 e st1 hcall] at hret ⊢
      simp only [Option.some.injEq] at hret
      subst hret
      obtain ⟨hst1, r, hf, hh, he⟩ := get_cached_embedding_inv E st fp _ e st1 hcall
      have hmem : st1.cacheMem = some (load_cache E st).1 := by
        rw [hst1]; exact (load_cache_state E st).1
      have hhit := get_cached_embedding_hit E st1 fp (E.shaHash content)
        (load_cache E st).1 r hmem hf hh e he
      rw [update_embedding_hit_eq E st1 fp content ok2 e st1 hhit]
      exact ⟨rfl, rfl⟩
    | none =>
      match hg : generate_note_embedding E fp content with
      | none =>
        rw [update_embedding_genfail_eq E st fp content ok1 st1 hcall hg] at hret
        simp at hret
      | some r =>
        cases ok1 with
        | false =>
          rw [update_embedding_miss_fail_eq E st fp content st1 r hcall hg] at hret
          simp at hret
        | true =>
          rw [update_embedding_miss_ok_eq E st fp content st1 r hcall hg] at hret ⊢
          obtain ⟨w, hv, hr⟩ := generate_note_embedding_inv E fp content r hg
          have hre : r.embedding = some w := by rw [hr]
          have hrh : r.hash = E.shaHash content := by rw [hr]
          have hret' : r.embedding = some v := hret
          have hv' : v = w := by rw [hre] at hret'; simpa using hret'.symm
          subst hv'
          set c2 : EmbCache :=
            { (load_cache E st1).1 with
              notes := assocSet (load_cache E st1).1.notes fp r } with hc2
          have hhit := get_cached_embedding_hit E
            { modelName := (load_cache E st1).2.modelName
              cacheMem := some c2
              cacheDisk := DFile.good c2 } fp (E.shaHash content) c2 r rfl
            (by rw [hc2]; exact assocFind_assocSet_self _ _ _) hrh v hre
          rw [update_embedding_hit_eq _ _ fp content ok2 v _ hhit]
          exact ⟨rfl, rfl⟩
  · intro hmiss w hv
    have hcall : get_cached_embedding E st fp (E.shaHash content) =
        (none, (load_cache E st).2) := by
      have h2 := get_cached_embedding_state E st fp (E.shaHash content)
      rcases hc : get_cached_embedding E st fp (E.shaHash content) with ⟨o, st1⟩
      rw [hc] at hmiss h2
      simp only at hmiss h2
      rw [hmiss, h2]
    have hg := generate_note_embedding_some E fp content w hv
    rw [update_embedding_miss_ok_eq E st fp content _ _ hcall hg]
    refine ⟨rfl, rfl, rfl, _, rfl, rfl, ?_⟩
    exact assocFind_assocSet_self _ _ _

/-- Claim C10: if the persistence write fails inside a cache-miss
`update_embedding`, the exception propagates (no vector is returned), the
on-disk cache file is untouched, but the new record is already in the
in-memory cache, so a subsequent identical call is a cache hit returning the
very vector that was never persisted. -/
theorem C10_persist_failure_leaves_memory_cache (E : Externals) (st : MgrState)
    (fp content : String)
    (hmiss : (get_cached_embedding E st fp (E.shaHash content)).1 = none)
    (w : List ℚ) (hv : E.noteVec fp content = some w) :
    (update_embedding E st fp content false false).ret = none ∧
    (update_embedding E st fp content false false).computed = true ∧
    (update_embedding E st fp content false false).persisted = false ∧
    (update_embedding E st fp content false false).st.cacheDisk = st.cacheDisk ∧
    (∃ c, (update_embedding E st fp content false false).st.cacheMem = some c ∧
      assocFind c.notes fp = some
        { embedding := some w, hash := E.shaHash content, filepath := fp,
          title := E.noteTitle fp content }) ∧
    (∀ ok2,
      (update_embedding E (update_embedding E st fp content false false).st
          fp content false ok2).ret = some w ∧
      (update_embedding E (update_embedding E st fp content false false).st
          fp content false ok2).computed = false) := by
  have hcall : get_cached_embedding E st fp (E.shaHash content) =
      (none, (load_cache E st).2) := by
    have h2 := get_cached_embedding_state E st fp (E.shaHash content)
    rcases hc : get_cached_embedding E st fp (E.shaHash content) with ⟨o, st1⟩
    rw [hc] at hmiss h2
    simp only at hmiss h2
    rw [hmiss, h2]
  have hg := generate_note_embedding_some E fp content w hv
  rw [update_embedding_miss_fail_eq E st fp content _ _ hcall hg]
  set rec : NoteRec :=
    { embedding := some w, hash := E.shaHash content, filepath := fp,
      title := E.noteTitle fp content } with hrec
  set c2 : EmbCache :=
    { (load_cache E (load_cache E st).2).1 with
      notes := assocSet (load_cache E (load_cache E st).2).1.notes fp rec } with hc2
  have hdisk : (load_cache E (load_cache E st).2).2.cacheDisk = st.cacheDisk := by
    rw [(load_cache_state E (load_cache E st).2).2.1]
    exact (load_cache_state E st).2.1
  refine ⟨rfl, rfl, rfl, hdisk, ⟨c2, rfl, by rw [hc2]; exact assocFind_assocSet_self _ _ _⟩, ?_⟩
  intro ok2
  have hhit := get_cached_embedding_hit E
    { modelName := (load_cache E (load_cache E st).2).2.modelName
      cacheMem := some c2
      cacheDisk := st.cacheDisk } fp (E.shaHash content) c2 rec rfl
    (by rw [hc2]; exact assocFind_assocSet_self _ _ _) (by rw [hrec]) w (by rw [hrec])
  rw [update_embedding_hit_eq _ _ fp content ok2 w _ (by rw [hdisk]; exact hhit)]
  exact ⟨rfl, rfl⟩

theorem C2_caching_idempotent_witness :
    ((update_embedding wE (update_embedding wE wSt "a.md" "hello" false true).st
        "a.md" "hello" false true).ret = some [1] ∧
     (update_embedding wE (update_embedding wE wSt "a.md" "hello" false true).st
        "a.md" "hello" false true).computed = false) ∧
    ((update_embedding wE wSt "b.md" "x" false true).ret = some [1] ∧
     (update_embedding wE wSt "b.md" "x" false true).computed = true ∧
     (update_embedding wE wSt "b.md" "x" false true).persisted = true) := by
  constructor
  · exact (C2_caching_idempotent wE wSt "a.md" "hello" true true).1 [1] rfl
  · have h := (C2_caching_idempotent wE wSt "b.md" "x" true true).2 rfl [1] rfl
    exact ⟨h.1, h.2.1, h.2.2.1⟩

theorem C10_persist_failure_witness :
    (update_embedding wE wSt "a.md" "hello" false false).ret = none ∧
    (update_embedding wE wSt "a.md" "hello" false false).st.cacheDisk = DFile.absent ∧
    (update_embedding wE (update_embedding wE wSt "a.md" "hello" false false).st
        "a.md" "hello" false true).ret = some [1] ∧
    (update_embedding wE (update_embedding wE wSt "a.md" "hello" false false).st
        "a.md" "hello" false true).computed = false := by
  have h := C10_persist_failure_leaves_memory_cache wE wSt "a.md" "hello" rfl [1] rfl
  exact ⟨h.1, h.2.2.2.1, (h.2.2.2.2.2 true).1, (h.2.2.2.2.2 true).2⟩

/-- Claim C5, counterexample: loading a persisted index does *not* verify
the stored model id.  With active model `"m"` and a persisted metadata file
recording model `"other-model"`, `_load_or_create_index` adopts the
persisted index and metadata unchanged instead of rebuilding. -/
theorem C5_counterexample :
    (load_or_create_index wE c5st).metadata = some c5meta ∧
    (load_or_create_index wE c5st).idx = some [[1]] ∧
    c5meta.model = some "other-model" ∧
    c5st.mgr.modelName = "m" ∧
    c5meta.model ≠ some c5st.mgr.modelName := by
  refine ⟨rfl, rfl, rfl, rfl, ?_⟩
  intro h
  simp [c5meta, c5st, wSt] at h

/-- Claim C5 (amended): on first access, the persisted index and metadata
are adopted whenever both files exist and load successfully — with no
verification of the stored model id — and in every other case (either file
absent or unparsable) a fresh empty index is created. -/
theorem C5_load_adopts_without_model_check (E : Externals) (st : EngineState) :
    (∀ rows m, st.idxDisk = DFile.good rows → st.metaDisk = DFile.good m →
      (load_or_create_index E st).idx = some rows ∧
      (load_or_create_index E st).metadata = some m) ∧
    ((∀ rows, st.idxDisk ≠ DFile.good rows) ∨ (∀ m, st.metaDisk ≠ DFile.good m) →
      (load_or_create_index E st).idx = some [] ∧
      (load_or_create_index E st).metadata =
        some { total_notes := 0, note_paths := [], dimension := E.dim, model := none }) := by
  constructor
  · intro rows m h1 h2
    unfold load_or_create_index
    rw [h1, h2]
    exact ⟨rfl, rfl⟩
  · intro h
    unfold load_or_create_index
    match h1 : st.idxDisk, h2 : st.metaDisk with
    | DFile.good rows, DFile.good m =>
      rcases h with h | h
      · exact absurd h1 (by simpa using h rows)
      · exact absurd h2 (by simpa using h m)
    | DFile.absent, DFile.absent => exact ⟨rfl, rfl⟩
    | DFile.absent, DFile.corrupt => exact ⟨rfl, rfl⟩
    | DFile.absent, DFile.good _ => exact ⟨rfl, rfl⟩
    | DFile.corrupt, DFile.absent => exact ⟨rfl, rfl⟩
    | DFile.corrupt, DFile.corrupt => exact ⟨rfl, rfl⟩
    | DFile.corrupt, DFile.good _ => exact ⟨rfl, rfl⟩
    | DFile.good _, DFile.absent => exact ⟨rfl, rfl⟩
    | DFile.good _, DFile.corrupt => exact ⟨rfl, rfl⟩

theorem C5_load_adopts_witness :
    (load_or_create_index wE c5st).idx = some [[1]] ∧
    (load_or_create_index wE c5st).metadata = some c5meta := by
  exact (C5_load_adopts_without_model_check wE c5st).1 [[1]] c5meta rfl rfl

/-- Claim C4, counterexample: `_save_index` does not use write-then-rename —
it writes the live index file and then the live metadata file directly — and
a crash in the middle of the metadata write leaves a partially written
metadata file (here `"NEW"`, a strict prefix of `"NEWMETA"`, replacing the
previous `"OLDMETA"`), observable by any reader. -/
theorem C4_counterexample :
    atomicOnly (save_index_ops "IDX" "NEWMETA") = false ∧
    crashRun (fun x => if x = "index-metadata.json" then some "OLDMETA" else none)
        (save_index_ops "IDX" "NEWMETA") 1 3 "index-metadata.json" = some "NEW" ∧
    ("NEW" : String) ≠ "OLDMETA" ∧ ("NEW" : String) ≠ "NEWMETA" := by
  refine ⟨rfl, ?_, by decide, by decide⟩
  decide

/-- Claim C4 (amended): only the embeddings-cache writer is atomic
write-then-rename — a crash at any point leaves the live cache file holding
either its previous contents or the complete new contents — while
`_save_index` writes the index and metadata files directly (not atomically).
Persistence write errors propagate to the caller of the mutating operation
(`update_embedding` raises and leaves the on-disk cache in its last-good
state; `build_index` raises when either `_save_index` write fails). -/
theorem C4_persistence_partially_atomic :
    (∀ d : String, atomicOnly (save_cache_ops d) = true) ∧
    (∀ (fs : String → Option String) (d : String) (k len : ℕ),
      crashRun fs (save_cache_ops d) k len "embeddings-cache.json" =
        fs "embeddings-cache.json" ∨
      crashRun fs (save_cache_ops d) k len "embeddings-cache.json" = some d) ∧
    (∀ d1 d2 : String, atomicOnly (save_index_ops d1 d2) = false) ∧
    (∀ E st fp content st1 r,
      get_cached_embedding E st fp (E.shaHash content) = (none, st1) →
      generate_note_embedding E fp content = some r →
      (update_embedding E st fp content false false).ret = none ∧
      (update_embedding E st fp content false false).st.cacheDisk = st.cacheDisk) ∧
    (∀ E st notes force okIdx okMeta,
      (validEmbeddings E notes).isEmpty = false →
      (okIdx = false ∨ okMeta = false) →
      (build_index E st notes force okIdx okMeta).ret = none) := by
  refine ⟨fun d => rfl, ?_, fun d1 d2 => rfl, ?_, ?_⟩
  · intro fs d k len
    match k with
    | 0 => left; rfl
    | 1 => left; rfl
    | (k' + 2) => right; rfl
  · intro E st fp content st1 r hc hg
    have hst1 : st1 = (load_cache E st).2 := by
      have h2 := get_cached_embedding_state E st fp (E.shaHash content)
      rw [hc] at h2
      exact h2
    subst hst1
    rw [update_embedding_miss_fail_eq E st fp content _ r hc hg]
    refine ⟨rfl, ?_⟩
    show (load_cache E (load_cache E st).2).2.cacheDisk = st.cacheDisk
    rw [(load_cache_state E (load_cache E st).2).2.1]
    exact (load_cache_state E st).2.1
  · intro E st notes force okIdx okMeta hvalid hfail
    unfold build_index
    rw [hvalid]
    simp only [Bool.false_eq_true, if_false]
    rcases hfail with rfl | rfl
    · rfl
    · match okIdx with
      | true => rfl
      | false => rfl

theorem C4_persistence_partially_atomic_witness :
    atomicOnly (save_cache_ops "data") = true ∧
    (crashRun (fun _ => none) (save_cache_ops "data") 0 1 "embeddings-cache.json" = none ∨
     crashRun (fun _ => none) (save_cache_ops "data") 0 1 "embeddings-cache.json" = some "data") ∧
    atomicOnly (save_index_ops "a" "b") = false ∧
    ((update_embedding wE wSt "a.md" "x" false false).ret = none ∧
     (update_embedding wE wSt "a.md" "x" false false).st.cacheDisk = DFile.absent) ∧
    (build_index wE c8st [{ filepath := "A.md", content := "x" }] false false true).ret
      = none := by
  have h := C4_persistence_partially_atomic
  refine ⟨h.1 "data", h.2.1 (fun _ => none) "data" 0 1, h.2.2.1 "a" "b", ?_, ?_⟩
  · exact h.2.2.2.1 wE wSt "a.md" "x" _ _ rfl rfl
  · exact h.2.2.2.2 wE c8st [{ filepath := "A.md", content := "x" }] false false true
      rfl (Or.inl rfl)

theorem getD_map_lt (f : α → β) : ∀ (l : List α) (i : ℕ), i < l.length →
    ∀ (d : β) (d' : α), (l.map f).getD i d = f (l.getD i d')
  | [], i, h, _, _ => by simp at h
  | a :: t, 0, _, d, d' => rfl
  | a :: t, i + 1, h, d, d' => by
    have := getD_map_lt f t i (by simpa using h) d d'
    simpa [List.getD_cons_succ] using this

/-- Claim C1: after a build, the metadata is aligned with the index rows —
`note_paths[i]` is the filepath of the valid embedding whose normalized
vector is row `i`, and `total_notes = len(note_paths) = row count`; a build
with zero valid embeddings reports failure and leaves the engine (memory and
disk) exactly as it was. -/
theorem C1_build_alignment (E : Externals) (st : EngineState) (notes : List Note)
    (force okIdx okMeta : Bool) :
    ((validEmbeddings E notes).isEmpty = true →
      build_index E st notes force okIdx okMeta =
        { ret := some BuildRet.failure, st := st }) ∧
    ((validEmbeddings E notes).isEmpty = false →
      ∃ m matrix,
        (build_index E st notes force okIdx okMeta).st.metadata = some m ∧
        (build_index E st notes force okIdx okMeta).st.idx = some matrix ∧
        m.total_notes = m.note_paths.length ∧
        m.note_paths.length = matrix.length ∧
        (∀ i, i < matrix.length →
          m.note_paths.getD i "" = ((validEmbeddings E notes).getD i dNR).filepath ∧
          matrix.getD i [] =
            E.normalize (((validEmbeddings E notes).getD i dNR).embedding.getD [])) ∧
        (okIdx = true → okMeta = true →
          (build_index E st notes force okIdx okMeta).st.idxDisk = DFile.good matrix ∧
          (build_index E st notes force okIdx okMeta).st.metaDisk = DFile.good m)) := by
  constructor
  · intro h
    unfold build_index
    rw [h]
    rfl
  · intro h
    have hlen : (buildMeta E st notes).note_paths.length = (buildMatrix E notes).length := by
      simp [buildMeta, buildMatrix]
    have htot : (buildMeta E st notes).total_notes = (buildMeta E st notes).note_paths.length := by
      simp [buildMeta]
    have hpos : ∀ i, i < (buildMatrix E notes).length →
        (buildMeta E st notes).note_paths.getD i "" =
          ((validEmbeddings E notes).getD i dNR).filepath ∧
        (buildMatrix E notes).getD i [] =
          E.normalize (((validEmbeddings E notes).getD i dNR).embedding.getD []) := by
      intro i hi
      have hi' : i < (validEmbeddings E notes).length := by
        simpa [buildMatrix] using hi
      constructor
      · exact getD_map_lt _ (validEmbeddings E notes) i hi' "" dNR
      · exact getD_map_lt _ (validEmbeddings E notes) i hi' [] dNR
    unfold build_index
    rw [h]
    simp only [Bool.false_eq_true, if_false]
    match okIdx, okMeta with
    | true, true =>
      exact ⟨buildMeta E st notes, buildMatrix E notes, rfl, rfl, htot, hlen, hpos,
        fun _ _ => ⟨rfl, rfl⟩⟩
    | true, false =>
      exact ⟨buildMeta E st notes, buildMatrix E notes, rfl, rfl, htot, hlen, hpos,
        fun _ hc => by simp at hc⟩
    | false, _ =>
      exact ⟨buildMeta E st notes, buildMatrix E notes, rfl, rfl, htot, hlen, hpos,
        fun hc _ => by simp at hc⟩

theorem C1_build_alignment_witness :
    build_index wEfail engFresh [{ filepath := "A.md", content := "x" }] false true true =
      { ret := some BuildRet.failure, st := engFresh } ∧
    (build_index wE engFresh [{ filepath := "A.md", content := "x" }] false true true).st.metadata
      ≠ none := by
  constructor
  · exact (C1_build_alignment wEfail engFresh _ false true true).1 rfl
  · obtain ⟨m, matrix, hm, -⟩ :=
      (C1_build_alignment wE engFresh [{ filepath := "A.md", content := "x" }]
        false true true).2 rfl
    rw [hm]
    simp

/-! ### Result-loop lemmas -/

theorem resultsLoop_length_le (paths : List String) (minSim : ℚ) (keep : String → Bool)
    (topK : ℕ) : ∀ (cands : List (Int × ℚ)) (acc : List Hit), acc.length < topK →
    (resultsLoop paths minSim keep topK cands acc).length ≤ topK := by
  intro cands
  induction cands with
  | nil => intro acc h; simpa [resultsLoop] using le_of_lt h
  | cons c rest ih =>
    intro acc h
    obtain ⟨i, s⟩ := c
    unfold resultsLoop
    by_cases hi : i = -1
    · rw [if_pos hi]; exact ih acc h
    · rw [if_neg hi]
      by_cases hs : s < minSim
      · rw [if_pos hs]; exact ih acc h
      · rw [if_neg hs]
        by_cases hk : keep (paths.getD i.toNat "")
        · simp only [hk, if_true]
          by_cases hbreak : topK ≤ (acc ++ [mkHit paths i s]).length
          · rw [if_pos hbreak]
            simpa using h
          · rw [if_neg hbreak]
            exact ih _ (not_le.mp hbreak)
        · simp only [hk, if_false]
          exact ih acc h

theorem resultsLoop_mem (paths : List String) (minSim : ℚ) (keep : String → Bool)
    (topK : ℕ) : ∀ (cands : List (Int × ℚ)) (acc : List Hit) (h : Hit),
    h ∈ resultsLoop paths minSim keep topK cands acc →
    h ∈ acc ∨ (minSim ≤ h.similarity ∧ keep h.filepath = true) := by
  intro cands
  induction cands with
  | nil => intro acc h hmem; exact Or.inl (by simpa [resultsLoop] using hmem)
  | cons c rest ih =>
    intro acc h hmem
    obtain ⟨i, s⟩ := c
    unfold resultsLoop at hmem
    by_cases hi : i = -1
    · rw [if_pos hi] at hmem; exact ih acc h hmem
    · rw [if_neg hi] at hmem
      by_cases hs : s < minSim
      · rw [if_pos hs] at hmem; exact ih acc h hmem
      · rw [if_neg hs] at hmem
        by_cases hk : keep (paths.getD i.toNat "")
        · simp only [hk, if_true] at hmem
          have hstep : ∀ x, x ∈ acc ++ [mkHit paths i s] →
              x ∈ acc ∨ (minSim ≤ x.similarity ∧ keep x.filepath = true) := by
            intro x hx
            rcases List.mem_append.mp hx with hx | hx
            · exact Or.inl hx
            · right
              rcases List.mem_singleton.mp hx with rfl
              exact ⟨not_lt.mp hs, hk⟩
          by_cases hbreak : topK ≤ (acc ++ [mkHit paths i s]).length
          · rw [if_pos hbreak] at hmem
            exact hstep h hmem
          · rw [if_neg hbreak] at hmem
            rcases ih _ h hmem with hh | hh
            · exact hstep h hh
            · exact Or.inr hh
        · simp only [hk, if_false] at hmem
          exact ih acc h hmem

theorem resultsLoop_sims (paths : List String) (minSim : ℚ) (keep : String → Bool)
    (topK : ℕ) : ∀ (cands : List (Int × ℚ)) (acc : List Hit),
    ∃ t, (resultsLoop paths minSim keep topK cands acc).map (fun h => h.similarity) =
      acc.map (fun h => h.similarity) ++ t ∧
      t.Sublist ((cands.filter (fun c => decide (c.1 ≠ -1))).map (fun c => c.2)) := by
  intro cands
  induction cands with
  | nil => intro acc; exact ⟨[], by simp [resultsLoop]⟩
  | cons c rest ih =>
    intro acc
    obtain ⟨i, s⟩ := c
    unfold resultsLoop
    by_cases hi : i = -1
    · rw [if_pos hi]
      obtain ⟨t, ht, hsub⟩ := ih acc
      refine ⟨t, ht, ?_⟩
      simp only [List.filter_cons, decide_eq_true_eq]
      rw [if_neg (by simpa using hi)]
      exact hsub
    · rw [if_neg hi]
      have hfc : ((i, s) :: rest).filter (fun c => decide (c.1 ≠ -1)) =
          (i, s) :: rest.filter (fun c => decide (c.1 ≠ -1)) := by
        simp only [List.filter_cons, decide_eq_true_eq]
        rw [if_pos (by simpa using hi)]
      by_cases hs : s < minSim
      · rw [if_pos hs]
        obtain ⟨t, ht, hsub⟩ := ih acc
        exact ⟨t, ht, by rw [hfc]; exact hsub.cons _⟩
      · rw [if_neg hs]
        by_cases hk : keep (paths.getD i.toNat "")
        · simp only [hk, if_true]
          by_cases hbreak : topK ≤ (acc ++ [mkHit paths i s]).length
          · rw [if_pos hbreak]
            refine ⟨[s], by simp [mkHit], ?_⟩
            rw [hfc]
            exact (List.nil_sublist _).cons₂ _
          · rw [if_neg hbreak]
            obtain ⟨t, ht, hsub⟩ := ih (acc ++ [mkHit paths i s])
            refine ⟨s :: t, ?_, ?_⟩
            · rw [ht]; simp [mkHit]
            · rw [hfc]
              exact hsub.cons₂ _
        · simp only [hk, if_false]
          obtain ⟨t, ht, hsub⟩ := ih acc
          exact ⟨t, ht, by rw [hfc]; exact hsub.cons _⟩

/-! ### FAISS search model lemmas -/

theorem faiss_search_filter (rows : List (List ℚ)) (q : List ℚ) (k : ℕ) :
    (faiss_search rows q k).filter (fun c => decide (c.1 ≠ -1)) =
      (sortDesc (fun x => x.2) (rows.enum.map (fun p => ((p.1 : Int), dot q p.2)))).take k := by
  unfold faiss_search
  rw [List.filter_append]
  have h1 : ∀ e ∈ (sortDesc (fun x => x.2)
      (rows.enum.map (fun p => ((p.1 : Int), dot q p.2)))).take k,
      (fun c : Int × ℚ => decide (c.1 ≠ -1)) e = true := by
    intro e he
    have he2 := (mem_sortDesc _ _ e).mp (List.mem_of_mem_take he)
    rcases List.mem_map.mp he2 with ⟨p, _, hpe⟩
    simp only [decide_eq_true_eq]
    rw [← hpe]
    omega
  rw [List.filter_eq_self.mpr h1]
  have h2 : (List.replicate
      (k - ((sortDesc (fun x => x.2)
        (rows.enum.map (fun p => ((p.1 : Int), dot q p.2)))).take k).length)
      ((-1 : Int), (0 : ℚ))).filter (fun c => decide (c.1 ≠ -1)) = [] := by
    apply List.filter_eq_nil_iff.mpr
    intro a ha
    rw [List.eq_of_mem_replicate ha]
    simp
  rw [h2, List.append_nil]

theorem faiss_search_ranked_pairwise (rows : List (List ℚ)) (q : List ℚ) (k : ℕ) :
    ((sortDesc (fun x : Int × ℚ => x.2)
        (rows.enum.map (fun p => ((p.1 : Int), dot q p.2)))).take k).Pairwise
      (fun a b => b.2 ≤ a.2) :=
  (pairwise_sortDesc _ _).sublist (List.take_sublist _ _)

theorem search_main_eq (E : Externals) (st : EngineState) (query : String)
    (topK : ℕ) (minSim : ℚ) (folder : Option String) (m : IdxMeta)
    (hm : st.metadata = some m) (htot : m.total_notes ≠ 0) :
    search E st query topK minSim folder =
      { results := resultsLoop m.note_paths minSim (folderKeep folder) topK
          (faiss_search (st.idx.getD []) (E.normalize (generate_embedding E query))
            (if truthyStr folder then topK * 3 else topK)) []
        requested := some (if truthyStr folder then topK * 3 else topK) } := by
  unfold search
  rw [hm]
  show (if m.total_notes = 0 then ({ results := [], requested := none } : SearchOut) else _) = _
  rw [if_neg htot]

theorem search_none_eq (E : Externals) (st : EngineState) (query : String)
    (topK : ℕ) (minSim : ℚ) (folder : Option String) (hm : st.metadata = none) :
    search E st query topK minSim folder = { results := [], requested := none } := by
  unfold search
  rw [hm]

theorem search_zero_eq (E : Externals) (st : EngineState) (query : String)
    (topK : ℕ) (minSim : ℚ) (folder : Option String) (m : IdxMeta)
    (hm : st.metadata = some m) (htot : m.total_notes = 0) :
    search E st query topK minSim folder = { results := [], requested := none } := by
  unfold search
  rw [hm]
  show (if m.total_notes = 0 then ({ results := [], requested := none } : SearchOut) else _) = _
  rw [if_pos htot]

/-- Claim C3 (amended): every result of `search` has similarity ≥
`min_similarity` and (for a nonempty folder filter) a filepath with the
folder prefix; at most `top_k` results are returned, in the index's
descending-similarity order; when a (truthy) folder filter is active and
`top_k > 0` the engine requests strictly more candidates (`top_k * 3`) from
the index than `top_k`; and an engine whose metadata is absent or records
zero notes answers with the empty list without querying the index. -/
theorem C3_search_contract (E : Externals) (st : EngineState) (query : String)
    (topK : ℕ) (minSim : ℚ) (folder : Option String) :
    (∀ h ∈ (search E st query topK minSim folder).results,
        minSim ≤ h.similarity ∧
        ∀ f, folder = some f → f ≠ "" → h.filepath.startsWith f = true) ∧
    (search E st query topK minSim folder).results.length ≤ topK ∧
    (search E st query topK minSim folder).results.Pairwise
      (fun a b => b.similarity ≤ a.similarity) ∧
    (truthyStr folder = true → 0 < topK →
      ∀ k, (search E st query topK minSim folder).requested = some k → topK < k) ∧
    (st.metadata = none →
      search E st query topK minSim folder = { results := [], requested := none }) ∧
    (∀ m, st.metadata = some m → m.total_notes = 0 →
      search E st query topK minSim folder = { results := [], requested := none }) := by
  match hm : st.metadata with
  | none =>
    rw [search_none_eq E st query topK minSim folder hm]
    exact ⟨by simp, by simp, by simp, by simp, fun _ => rfl, fun _ _ _ => rfl⟩
  | some m =>
    by_cases htot : m.total_notes = 0
    · rw [search_zero_eq E st query topK minSim folder m hm htot]
      exact ⟨by simp, by simp, by simp, by simp, fun _ => rfl, fun _ _ _ => rfl⟩
    · rw [search_main_eq E st query topK minSim folder m hm htot]
      simp only
      refine ⟨?_, ?_, ?_, ?_, ?_, ?_⟩
      · intro h hmem
        rcases resultsLoop_mem _ _ _ _ _ _ h hmem with hh | ⟨hsim, hkeep⟩
        · simp at hh
        · refine ⟨hsim, ?_⟩
          intro f hf hne
          rw [hf] at hkeep
          simpa [folderKeep, hne] using hkeep
      · match htk : topK with
        | 0 =>
          have hc : faiss_search (st.idx.getD [])
              (E.normalize (generate_embedding E query))
              (if truthyStr folder then 0 * 3 else 0) = [] := by
            match truthyStr folder with
            | true => simp [faiss_search]
            | false => simp [faiss_search]
          rw [hc]
          simp [resultsLoop]
        | (n + 1) => exact resultsLoop_length_le _ _ _ _ _ [] (by simp)
      · obtain ⟨t, ht, hsub⟩ := resultsLoop_sims m.note_paths minSim
          (folderKeep folder) topK
          (faiss_search (st.idx.getD []) (E.normalize (generate_embedding E query))
            (if truthyStr folder then topK * 3 else topK)) []
        rw [faiss_search_filter] at hsub
        have hpw : t.Pairwise (fun a b => b ≤ a) :=
          (List.pairwise_map.mpr (faiss_search_ranked_pairwise _ _ _)).sublist hsub
        have hres : ((resultsLoop m.note_paths minSim (folderKeep folder) topK
            (faiss_search (st.idx.getD []) (E.normalize (generate_embedding E query))
              (if truthyStr folder then topK * 3 else topK)) []).map
            (fun h => h.similarity)).Pairwise (fun a b => b ≤ a) := by
          rw [ht]
          simpa using hpw
        exact List.pairwise_map.mp hres
      · intro htr hpos k hk
        rw [htr] at hk
        simp only [if_true] at hk
        have : k = topK * 3 := by
          simpa using hk.symm
        omega
      · intro hm'
        exact absurd hm' (by simp)
      · intro m' hm' htot'
        injection hm' with h
        rw [← h] at htot'
        exact absurd htot' htot

/-- Claim C3, counterexample to the claim as stated: with an active folder
filter and `top_k = 0`, `search` requests `0 * 3 = 0` candidates from the
index — not *more* than `top_k`. -/
theorem C3_counterexample :
    truthyStr (some "f") = true ∧
    (search wE c8st "q" 0 0 (some "f")).requested = some 0 ∧
    ¬ (0 < 0) := ⟨rfl, rfl, by omega⟩

theorem C3_search_contract_witness :
    search wE engFresh "q" 2 0 (some "f") = { results := [], requested := none } ∧
    1 < 3 := by
  refine ⟨(C3_search_contract wE engFresh "q" 2 0 (some "f")).2.2.2.2.1 rfl, ?_⟩
  exact (C3_search_contract wE c8st "q" 1 0 (some "f")).2.2.2.1 rfl (by omega) 3 rfl

/-! ### search_by_embedding / search_by_note -/

theorem search_by_embedding_main_eq (E : Externals) (st : EngineState) (v : List ℚ)
    (topK : ℕ) (minSim : ℚ) (exclude : Option String) (m : IdxMeta)
    (hm : st.metadata = some m) (htot : m.total_notes ≠ 0) :
    search_by_embedding E st v topK minSim exclude =
      { results := resultsLoop m.note_paths minSim (excludeKeep exclude) topK
          (faiss_search (st.idx.getD []) (E.normalize v)
            (if truthyStr exclude then topK + 1 else topK)) []
        requested := some (if truthyStr exclude then topK + 1 else topK) } := by
  unfold search_by_embedding
  rw [hm]
  show (if m.total_notes = 0 then ({ results := [], requested := none } : SearchOut) else _) = _
  rw [if_neg htot]

theorem search_by_embedding_contract (E : Externals) (st : EngineState) (v : List ℚ)
    (topK : ℕ) (minSim : ℚ) (s : String) (hne : s ≠ "") (hpos : 0 < topK) :
    (∀ h ∈ (search_by_embedding E st v topK minSim (some s)).results, h.filepath ≠ s) ∧
    (search_by_embedding E st v topK minSim (some s)).results.length ≤ topK := by
  match hm : st.metadata with
  | none =>
    unfold search_by_embedding
    rw [hm]
    exact ⟨by simp, by simp⟩
  | some m =>
    by_cases htot : m.total_notes = 0
    · unfold search_by_embedding
      rw [hm]
      show (∀ h ∈ (if m.total_notes = 0
          then ({ results := [], requested := none } : SearchOut) else _).results, _) ∧ _
      rw [if_pos htot]
      exact ⟨by simp, by simp [htot]⟩
    · rw [search_by_embedding_main_eq E st v topK minSim (some s) m hm htot]
      simp only
      constructor
      · intro h hmem
        rcases resultsLoop_mem _ _ _ _ _ _ h hmem with hh | ⟨_, hkeep⟩
        · simp at hh
        · simp only [excludeKeep] at hkeep
          rw [if_neg (by simpa using hne)] at hkeep
          simpa using hkeep
      · exact resultsLoop_length_le _ _ _ _ _ [] (by simpa using hpos)

/-- Claim C8 (amended): for every nonempty reference path, `search_by_note`
never returns the reference path itself, and — because it both requests one
extra candidate and raises the truncation limit by one — it returns at most
`top_k + 1` results. -/
theorem C8_search_by_note_excludes_self (E : Externals) (st : EngineState)
    (fp content : String) (topK : ℕ) (minSim : ℚ) (ok : Bool) (hfp : fp ≠ "") :
    ∀ out, (search_by_note E st fp content topK minSim ok).1 = some out →
      (∀ h ∈ out.results, h.filepath ≠ fp) ∧ out.results.length ≤ topK + 1 := by
  intro out hout
  unfold search_by_note at hout
  rcases hr : (update_embedding E st.mgr fp content false ok).ret with _ | v
  · rw [hr] at hout
    simp at hout
  · rw [hr] at hout
    simp only [Option.some_inj] at hout
    rw [← hout]
    exact search_by_embedding_contract E _ v (topK + 1) minSim fp hfp (by omega)

/-- Concrete evaluation of `search_by_note` on `c8st` with `top_k = 1`:
two results come back. -/
theorem c8_eval : (search_by_note wE c8st "X.md" "c" 1 0 true).1 =
    some { results := [mkHit ["A.md", "B.md", "C.md"] 0 1,
                       mkHit ["A.md", "B.md", "C.md"] 1 1]
           requested := some 3 } := by
  have hdot : dot [1] [1] = (1 : ℚ) := by norm_num [dot]
  have hret : (update_embedding wE c8st.mgr "X.md" "c" false true).ret = some [1] := rfl
  unfold search_by_note
  rw [hret]
  simp only [Option.some_inj]
  have hfs : faiss_search (c8st.idx.getD []) (wE.normalize [1]) 3 =
      [((0 : Int), (1 : ℚ)), (1, 1), (2, 1)] := by
    show faiss_search [[1], [1], [1]] [1] 3 = _
    unfold faiss_search
    rw [show ([[1], [1], [1]] : List (List ℚ)).enum.map
        (fun p => ((p.1 : Int), dot [1] p.2)) = [((0 : Int), (1 : ℚ)), (1, 1), (2, 1)] by
      simp [List.enum, hdot]]
    norm_num [sortDesc, insDesc]
  have hloop : resultsLoop ["A.md", "B.md", "C.md"] 0 (excludeKeep (some "X.md")) 2
      [((0 : Int), (1 : ℚ)), (1, 1), (2, 1)] [] =
      [mkHit ["A.md", "B.md", "C.md"] 0 1, mkHit ["A.md", "B.md", "C.md"] 1 1] := by
    norm_num [resultsLoop, excludeKeep]
    decide
  rw [search_by_embedding_main_eq wE _ [1] 2 0 (some "X.md")
    { total_notes := 3, note_paths := ["A.md", "B.md", "C.md"], dimension := 1,
      model := some "m" } rfl (by decide)]
  rw [show (if truthyStr (some "X.md") then 2 + 1 else 2) = 3 from rfl]
  rw [hfs, hloop]

/-- Claim C8, counterexample to "returns at most top_k results":
`search_by_note` with `top_k = 1` on a three-note index (reference note not
in the index) returns two results — the inner call truncates at
`top_k + 1`, not `top_k`. -/
theorem C8_counterexample :
    (search_by_note wE c8st "X.md" "c" 1 0 true).1.map (fun o => o.results.length) =
      some 2 ∧ ¬ (2 ≤ 1) := by
  refine ⟨?_, by omega⟩
  rw [c8_eval]
  rfl

theorem C8_search_by_note_witness :
    (mkHit ["A.md", "B.md", "C.md"] 0 1).filepath ≠ "X.md" ∧
    ({ results := [mkHit ["A.md", "B.md", "C.md"] 0 1,
                   mkHit ["A.md", "B.md", "C.md"] 1 1]
       requested := some 3 } : SearchOut).results.length ≤ 2 := by
  have h := C8_search_by_note_excludes_self wE c8st "X.md" "c" 1 0 true (by decide)
    _ c8_eval
  exact ⟨h.1 _ (by simp), h.2⟩

theorem foldl_assocSet_all {Q : String × String → Prop} :
    ∀ (l : List String) (acc : List (String × String)),
    (∀ e ∈ acc, Q e) → (∀ p ∈ l, Q (stem p, p)) →
    ∀ e ∈ l.foldl (fun a p => assocSet a (stem p) p) acc, Q e := by
  intro l
  induction l with
  | nil => intro acc ha _ e he; exact ha e he
  | cons p rest ih =>
    intro acc ha hl e he
    refine ih (assocSet acc (stem p) p) ?_
      (fun q hq => hl q (List.mem_cons_of_mem _ hq)) e he
    intro e' he'
    rcases mem_assocSet _ _ _ _ he' with h | h
    · exact ha e' h
    · rw [h]; exact hl p (List.mem_cons_self _ _)

theorem noteTitlesMap_mem (paths : List String) (fp : String) :
    ∀ e ∈ noteTitlesMap paths fp, e.1 = stem e.2 ∧ e.2 ∈ paths ∧ e.2 ≠ fp := by
  refine foldl_assocSet_all _ [] (by simp) ?_
  intro p hp
  rcases List.mem_filter.mp hp with ⟨hmem, hne⟩
  refine ⟨rfl, hmem, ?_⟩
  simpa using hne

/-- Claim C7: `find_unlinked_mentions` reports, ranked by occurrence count
descending, exactly those other indexed notes whose title (filename stem)
occurs as a whole word, case-insensitively, in the front-matter-stripped
body, except targets already referenced by an explicit wiki-link whose text
equals the note path (cf. spec scenario D, which writes the removing link as
`[[Q.md]]`).  In particular an occurring, unlinked title is reported with
`occurrences ≥ 1`, and a title whose path appears among the extracted link
texts is never reported. -/
theorem C7_unlinked_mentions (E : Externals) (st : EngineState) (fp content : String) :
    (st.metadata = none → find_unlinked_mentions E st fp content = []) ∧
    (∀ meta, st.metadata = some meta →
      ∀ mn ∈ find_unlinked_mentions E st fp content,
        mn.title = stem mn.filepath ∧
        mn.filepath ∈ meta.note_paths ∧ mn.filepath ≠ fp ∧
        mn.filepath ∉ extractLinks content ∧
        mn.occurrences = countOcc mn.title.toList (fmBody E content).toList ∧
        1 ≤ mn.occurrences) ∧
    (find_unlinked_mentions E st fp content).Pairwise
      (fun a b => b.occurrences ≤ a.occurrences) ∧
    (∀ meta, st.metadata = some meta →
      ∀ t p, (t, p) ∈ noteTitlesMap meta.note_paths fp →
        p ∉ extractLinks content →
        1 ≤ countOcc t.toList (fmBody E content).toList →
        ∃ mn ∈ find_unlinked_mentions E st fp content,
          mn.filepath = p ∧ mn.title = t ∧
          mn.occurrences = countOcc t.toList (fmBody E content).toList) := by
  refine ⟨?_, ?_, ?_, ?_⟩
  · intro h
    unfold find_unlinked_mentions
    rw [h]
  · intro meta hm mn hmn
    unfold find_unlinked_mentions at hmn
    rw [hm] at hmn
    rw [mem_sortDesc] at hmn
    rcases List.mem_filterMap.mp hmn with ⟨⟨t, p⟩, htp, heq⟩
    by_cases hlink : p ∈ extractLinks content
    · rw [if_pos hlink] at heq; exact absurd heq (by simp)
    · rw [if_neg hlink] at heq
      by_cases hocc : countOcc t.toList (fmBody E content).toList = 0
      · rw [if_pos hocc] at heq; exact absurd heq (by simp)
      · rw [if_neg hocc] at heq
        rw [Option.some_inj] at heq
        obtain ⟨h1, h2, h3⟩ := noteTitlesMap_mem meta.note_paths fp (t, p) htp
        rw [← heq]
        exact ⟨h1, h2, h3, hlink, rfl, Nat.one_le_iff_ne_zero.mpr hocc⟩
  · unfold find_unlinked_mentions
    match st.metadata with
    | none => simp
    | some meta =>
      have h := pairwise_sortDesc (fun mn : Mention => (mn.occurrences : ℚ))
        ((noteTitlesMap meta.note_paths fp).filterMap (fun tp =>
          if tp.2 ∈ extractLinks content then none
          else
            if countOcc tp.1.toList (fmBody E content).toList = 0 then none
            else some { filepath := tp.2, title := tp.1
                        occurrences := countOcc tp.1.toList (fmBody E content).toList }))
      exact h.imp (fun hle => by exact_mod_cast hle)
  · intro meta hm t p htp hlink hocc
    refine ⟨{ filepath := p, title := t
              occurrences := countOcc t.toList (fmBody E content).toList }, ?_, rfl, rfl, rfl⟩
    unfold find_unlinked_mentions
    rw [hm, mem_sortDesc]
    refine List.mem_filterMap.mpr ⟨(t, p), htp, ?_⟩
    rw [if_neg hlink, if_neg (Nat.one_le_iff_ne_zero.mp hocc)]

theorem C7_unlinked_mentions_witness :
    find_unlinked_mentions wE c7st "P.md" "note about Q here" ≠ [] := by
  obtain ⟨mn, hmem, -⟩ :=
    (C7_unlinked_mentions wE c7st "P.md" "note about Q here").2.2.2
      { total_notes := 2, note_paths := ["P.md", "Q.md"], dimension := 1,
        model := some "m" } rfl "Q" "Q.md"
      (by rw [show noteTitlesMap ["P.md", "Q.md"] "P.md" = [("Q", "Q.md")] from rfl]
          exact List.mem_singleton.mpr rfl)
      (by rw [show extractLinks "note about Q here" = [] from rfl]
          exact List.not_mem_nil _)
      (by decide)
  intro h
  rw [h] at hmem
  exact absurd hmem (List.not_mem_nil _)

theorem length_filter_mono {p q : α → Bool} (l : List α)
    (h : ∀ x ∈ l, p x = true → q x = true) :
    (l.filter p).length ≤ (l.filter q).length := by
  induction l with
  | nil => simp
  | cons a t ih =>
    have ht : ∀ x ∈ t, p x = true → q x = true :=
      fun x hx => h x (List.mem_cons_of_mem _ hx)
    simp only [List.filter_cons]
    by_cases hp : p a = true
    · rw [if_pos hp, if_pos (h a (List.mem_cons_self _ _) hp)]
      simpa using ih ht
    · rw [if_neg hp]
      by_cases hq : q a = true
      · rw [if_pos hq]
        exact le_trans (ih ht) (by simp)
      · rw [if_neg hq]
        exact ih ht

theorem unvis_mono (n : ℕ) (v w : List ℕ) (h : ∀ x ∈ v, x ∈ w) :
    unvis n w ≤ unvis n v := by
  apply length_filter_mono
  intro x _ hx
  simp only [Bool.not_eq_true'] at hx ⊢
  cases hc : v.contains x
  · rfl
  · exfalso
    have hxw : x ∈ w := h x (by simpa using hc)
    rw [show w.contains x = true by simpa using hxw] at hx
    simp at hx

theorem unvis_le (n : ℕ) (v : List ℕ) : unvis n v ≤ n := by
  calc ((List.range n).filter (fun x => !(v.contains x))).length
      ≤ (List.range n).length := List.length_filter_le _ _
    _ = n := List.length_range n

theorem unvis_zero_all (n : ℕ) (v : List ℕ) (h : unvis n v = 0) :
    ∀ x, x < n → v.contains x = true := by
  intro x hx
  by_contra hc
  have hcf : v.contains x = false := by
    cases hcv : v.contains x
    · rfl
    · exact absurd hcv hc
  have hxf : x ∈ (List.range n).filter (fun y => !(v.contains y)) :=
    List.mem_filter.mpr ⟨List.mem_range.mpr hx, by rw [hcf]; rfl⟩
  rw [List.length_eq_zero.mp h] at hxf
  exact List.not_mem_nil _ hxf

theorem filter_length_succ_of_mem {x : ℕ} {P P' : ℕ → Bool}
    (hPx : P x = true) (hP'x : P' x = false)
    (hagree : ∀ y, y ≠ x → P' y = P y) :
    ∀ (l : List ℕ), l.Nodup → x ∈ l →
      (l.filter P).length = (l.filter P').length + 1 := by
  intro l
  induction l with
  | nil => intro _ h; simp at h
  | cons a t ih =>
    intro hnd hmem
    rcases List.nodup_cons.mp hnd with ⟨hat, hndt⟩
    by_cases hax : a = x
    · subst hax
      have hfeq : t.filter P = t.filter P' := by
        apply List.filter_congr
        intro y hy
        exact (hagree y (fun hyx => hat (hyx ▸ hy))).symm
      rw [List.filter_cons, List.filter_cons, hPx, hP'x]
      rw [if_pos rfl, if_neg (by simp)]
      simp only [List.length_cons]
      rw [hfeq]
    · have hmem' : x ∈ t := by
        rcases List.mem_cons.mp hmem with h | h
        · exact absurd h.symm hax
        · exact h
      have ha' : P' a = P a := hagree a hax
      rw [List.filter_cons, List.filter_cons, ha']
      by_cases hpa : P a = true
      · rw [if_pos hpa, if_pos hpa]
        simp only [List.length_cons]
        rw [ih hndt hmem']
      · rw [if_neg hpa, if_neg hpa]
        exact ih hndt hmem'

theorem unvis_cons (n : ℕ) (v : List ℕ) (x : ℕ) (hx : x < n)
    (hnv : v.contains x = false) : unvis n v = unvis n (x :: v) + 1 := by
  unfold unvis
  exact filter_length_succ_of_mem (x := x)
    (by rw [hnv]; rfl)
    (by simp [List.contains_cons])
    (fun y hyx => by
      simp only [List.contains_cons]
      rw [show (y == x) = false by simpa using hyx]
      simp)
    (List.range n) (List.nodup_range n) (List.mem_range.mpr hx)

theorem dfsGo_nil (adj : ℕ → ℕ → Bool) (n fuel node : ℕ) (s : List ℕ × List ℕ) :
    dfsGo adj n fuel node [] s = s := by
  unfold dfsGo
  rfl

theorem dfsGo_cons_skip (adj : ℕ → ℕ → Bool) (n fuel node nb : ℕ) (rest : List ℕ)
    (v c : List ℕ) (h : (adj node nb && !(v.contains nb)) = false) :
    dfsGo adj n fuel node (nb :: rest) (v, c) = dfsGo adj n fuel node rest (v, c) := by
  rw [dfsGo.eq_def]
  simp only [h, Bool.false_eq_true, if_false]

theorem dfsGo_cons_visit (adj : ℕ → ℕ → Bool) (n fuel' node nb : ℕ) (rest : List ℕ)
    (v c : List ℕ) (h : (adj node nb && !(v.contains nb)) = true) :
    dfsGo adj n (fuel' + 1) node (nb :: rest) (v, c) =
      dfsGo adj n (fuel' + 1) node rest
        (dfsGo adj n fuel' nb (List.range n) (nb :: v, c ++ [nb])) := by
  rw [dfsGo.eq_def]
  simp only [h, if_true]

theorem dfsGo_cons_visit_zero (adj : ℕ → ℕ → Bool) (n node nb : ℕ) (rest : List ℕ)
    (v c : List ℕ) (h : (adj node nb && !(v.contains nb)) = true) :
    dfsGo adj n 0 node (nb :: rest) (v, c) = dfsGo adj n 0 node rest (v, c) := by
  rw [dfsGo.eq_def]
  simp only [h, if_true]

/-- Master specification of the DFS worker: with enough fuel
(`fuel ≥ #unvisited`), the visited list grows by a block `d` of new, bounded,
pairwise-distinct nodes and the component collects exactly that block; every
adjacent neighbor in the pending list ends up visited, and every newly
visited node has *all* its neighbors visited on return. -/
theorem dfsGo_spec (adj : ℕ → ℕ → Bool) (n : ℕ) :
    ∀ (fuel : ℕ) (nbs : List ℕ) (node : ℕ) (v c : List ℕ),
    unvis n v ≤ fuel → (∀ x ∈ nbs, x < n) → node ∈ v →
    ∃ d : List ℕ,
      (dfsGo adj n fuel node nbs (v, c)).1 = d ++ v ∧
      (dfsGo adj n fuel node nbs (v, c)).2 = c ++ d.reverse ∧
      d.Nodup ∧
      (∀ x ∈ d, x ∉ v) ∧
      (∀ x ∈ d, x < n) ∧
      (∀ nb ∈ nbs, adj node nb = true → nb ∈ (dfsGo adj n fuel node nbs (v, c)).1) ∧
      (∀ x ∈ d, ∀ y, y < n → adj x y = true →
        y ∈ (dfsGo adj n fuel node nbs (v, c)).1) ∧
      (∀ x ∈ d, ∃ y, (y = node ∨ y ∈ d) ∧ y ≠ x ∧ adj y x = true) ∧
      (d ≠ [] → ∃ x ∈ d, adj node x = true) := by
  intro fuel
  induction fuel using Nat.strong_induction_on with
  | _ fuel ihf =>
    intro nbs
    induction nbs with
    | nil =>
      intro node v c _ _ _
      exact ⟨[], by simp [dfsGo_nil], by simp [dfsGo_nil], by simp, by simp, by simp,
        by simp, by simp, by simp, by simp⟩
    | cons nb rest ihl =>
      intro node v c hf hb hnodev
      have hbnb : nb < n := hb nb (List.mem_cons_self _ _)
      have hbrest : ∀ x ∈ rest, x < n := fun x hx => hb x (List.mem_cons_of_mem _ hx)
      by_cases hcond : (adj node nb && !(v.contains nb)) = true
      · have hpair : adj node nb = true ∧ (!(v.contains nb)) = true := by
          have h := hcond
          rw [Bool.and_eq_true] at h
          exact h
        have hadj : adj node nb = true := hpair.1
        have hnv : v.contains nb = false := by
          have h2 := hpair.2
          cases hc2 : v.contains nb
          · rfl
          · rw [hc2] at h2; simp at h2
        have hnvm : nb ∉ v := by simpa using hnv
        cases fuel with
        | zero =>
          exfalso
          have h0 : unvis n v = 0 := Nat.le_zero.mp hf
          have := unvis_zero_all n v h0 nb hbnb
          rw [this] at hnv
          simp at hnv
        | succ fuel' =>
          have hfi : unvis n (nb :: v) ≤ fuel' := by
            have := unvis_cons n v nb hbnb hnv
            omega
          obtain ⟨d₁, hv1, hc1, hnd1, hout1, hlt1, hfr1, hclo1, hvst1, _⟩ :=
            ihf fuel' (Nat.lt_succ_self _) (List.range n) nb (nb :: v) (c ++ [nb])
              hfi (fun x hx => List.mem_range.mp hx) (List.mem_cons_self _ _)
          rw [dfsGo_cons_visit adj n fuel' node nb rest v c hcond]
          set s1 := dfsGo adj n fuel' nb (List.range n) (nb :: v, c ++ [nb]) with hs1
          have hsub_v_s1 : ∀ x ∈ v, x ∈ s1.1 := by
            intro x hx
            rw [hv1]
            exact List.mem_append.mpr (Or.inr (List.mem_cons_of_mem _ hx))
          have hnb_s1 : nb ∈ s1.1 := by
            rw [hv1]
            exact List.mem_append.mpr (Or.inr (List.mem_cons_self _ _))
          have hd1_s1 : ∀ x ∈ d₁, x ∈ s1.1 := by
            intro x hx
            rw [hv1]
            exact List.mem_append.mpr (Or.inl hx)
          have hfo : unvis n s1.1 ≤ fuel' + 1 :=
            le_trans (unvis_mono n v s1.1 hsub_v_s1) hf
          obtain ⟨d₂, hv2, hc2b, hnd2, hout2, hlt2, hfr2, hclo2, hvst2, _⟩ :=
            ihl node s1.1 s1.2 hfo hbrest (hsub_v_s1 node hnodev)
          rw [Prod.mk.eta] at hv2 hc2b hfr2 hclo2
          have hs1_res : ∀ x ∈ s1.1, x ∈ (dfsGo adj n (fuel' + 1) node rest s1).1 := by
            intro x hx
            rw [hv2]
            exact List.mem_append.mpr (Or.inr hx)
          have hnb_mem_d : nb ∈ d₂ ++ d₁ ++ [nb] :=
            List.mem_append.mpr (Or.inr (List.mem_singleton.mpr rfl))
          refine ⟨d₂ ++ d₁ ++ [nb], ?_, ?_, ?_, ?_, ?_, ?_, ?_, ?_, ?_⟩
          · rw [hv2, hv1]
            simp [List.append_assoc]
          · rw [hc2b, hc1]
            simp [List.reverse_append, List.append_assoc]
          · rw [List.append_assoc, List.nodup_append]
            refine ⟨hnd2, ?_, ?_⟩
            · rw [List.nodup_append]
              refine ⟨hnd1, List.nodup_singleton _, ?_⟩
              intro a ha hmem
              rcases List.mem_singleton.mp hmem with rfl
              exact (hout1 a ha) (List.mem_cons_self _ _)
            · intro a ha hmem
              have has1 : a ∉ s1.1 := hout2 a ha
              rcases List.mem_append.mp hmem with h | h
              · exact has1 (hd1_s1 a h)
              · rcases List.mem_singleton.mp h with rfl
                exact has1 hnb_s1
          · intro x hx
            rcases List.mem_append.mp hx with hx | hx
            · rcases List.mem_append.mp hx with hx | hx
              · intro hxv
                exact (hout2 x hx) (hsub_v_s1 x hxv)
              · intro hxv
                exact (hout1 x hx) (List.mem_cons_of_mem _ hxv)
            · rcases List.mem_singleton.mp hx with rfl
              exact hnvm
          · intro x hx
            rcases List.mem_append.mp hx with hx | hx
            · rcases List.mem_append.mp hx with hx | hx
              · exact hlt2 x hx
              · exact hlt1 x hx
            · rcases List.mem_singleton.mp hx with rfl
              exact hbnb
          · intro x hx hadjx
            rcases List.mem_cons.mp hx with rfl | hx
            · exact hs1_res x hnb_s1
            · exact hfr2 x hx hadjx
          · intro x hx y hy hadjy
            rcases List.mem_append.mp hx with hx | hx
            · rcases List.mem_append.mp hx with hx | hx
              · exact hclo2 x hx y hy hadjy
              · exact hs1_res y (hclo1 x hx y hy hadjy)
            · rcases List.mem_singleton.mp hx with rfl
              exact hs1_res y (hfr1 y (List.mem_range.mpr hy) hadjy)
          · intro x hx
            rcases List.mem_append.mp hx with hx | hx
            · rcases List.mem_append.mp hx with hx | hx
              · obtain ⟨y, hy, hne, hadjy⟩ := hvst2 x hx
                refine ⟨y, ?_, hne, hadjy⟩
                rcases hy with rfl | hy
                · exact Or.inl rfl
                · exact Or.inr (List.mem_append.mpr (Or.inl (List.mem_append.mpr (Or.inl hy))))
              · obtain ⟨y, hy, hne, hadjy⟩ := hvst1 x hx
                refine ⟨y, Or.inr ?_, hne, hadjy⟩
                rcases hy with rfl | hy
                · exact hnb_mem_d
                · exact List.mem_append.mpr (Or.inl (List.mem_append.mpr (Or.inr hy)))
            · rcases List.mem_singleton.mp hx with rfl
              refine ⟨node, Or.inl rfl, ?_, hadj⟩
              intro hco
              rw [hco] at hnodev
              exact hnvm hnodev
          · intro _
            exact ⟨nb, hnb_mem_d, hadj⟩
      · have hcond' : (adj node nb && !(v.contains nb)) = false := by
          cases hcb : (adj node nb && !(v.contains nb))
          · rfl
          · exact absurd hcb hcond
        rw [dfsGo_cons_skip adj n fuel node nb rest v c hcond']
        obtain ⟨d, h1, h2, h3, h4, h5, h6, h7, h8, h9⟩ := ihl node v c hf hbrest hnodev
        refine ⟨d, h1, h2, h3, h4, h5, ?_, h7, h8, h9⟩
        intro x hx hadjx
        rcases List.mem_cons.mp hx with rfl | hx
        · have hcv : v.contains x = true := by
            cases hcv : v.contains x
            · rw [hadjx, hcv] at hcond'
              simp at hcond'
            · rfl
          rw [h1]
          exact List.mem_append.mpr (Or.inr (by simpa using hcv))
        · exact h6 x hx hadjx

theorem foldl_eq_fcRun (adj : ℕ → ℕ → Bool) (n : ℕ) :
    ∀ (l : List ℕ) (v : List ℕ) (comps : List (List ℕ)),
    l.foldl
      (fun acc node =>
        if acc.1.contains node then acc
        else ((dfsGo adj n n node (List.range n) (node :: acc.1, [node])).1,
              acc.2 ++ [(dfsGo adj n n node (List.range n) (node :: acc.1, [node])).2]))
      (v, comps) = fcRun adj n l v comps := by
  intro l
  induction l with
  | nil => intro v comps; rfl
  | cons node l ih =>
    intro v comps
    rw [List.foldl_cons]
    by_cases hc : v.contains node = true
    · simp only [fcRun, hc, if_true]
      exact ih v comps
    · have hcf : v.contains node = false := by
        cases hcb : v.contains node
        · rfl
        · exact absurd hcb hc
      simp only [fcRun, hcf, Bool.false_eq_true, if_false]
      exact ih _ _

theorem findComponents_eq_fcRun (adj : ℕ → ℕ → Bool) (n : ℕ) :
    findComponents adj n = (fcRun adj n (List.range n) [] []).2 := by
  unfold findComponents
  rw [foldl_eq_fcRun]

/-- Invariant of the component-collection loop: visited = union of the
collected components, components are nonempty, pairwise disjoint (their
concatenation has no duplicates), bounded by `n`, each closed under the
(symmetric) adjacency, and every component of two or more nodes is free of
isolated nodes; the processed prefix is covered and visited only grows. -/
theorem fcRun_inv (adj : ℕ → ℕ → Bool) (n : ℕ)
    (hsym : ∀ i j, adj i j = adj j i) :
    ∀ (l : List ℕ) (v : List ℕ) (comps : List (List ℕ)),
    (∀ x ∈ l, x < n) →
    (∀ x, x ∈ v ↔ ∃ C ∈ comps, x ∈ C) →
    (comps.flatten).Nodup →
    (∀ x ∈ v, x < n) →
    (∀ x ∈ v, ∀ y, y < n → adj x y = true → y ∈ v) →
    (∀ C ∈ comps, ∀ x ∈ C, ∀ y, y < n → adj x y = true → y ∈ C) →
    (∀ C ∈ comps, C ≠ []) →
    (∀ C ∈ comps, 2 ≤ C.length → ∀ x ∈ C, ∃ y ∈ C, y ≠ x ∧ adj x y = true) →
    (∀ x, x ∈ (fcRun adj n l v comps).1 ↔ ∃ C ∈ (fcRun adj n l v comps).2, x ∈ C) ∧
    ((fcRun adj n l v comps).2.flatten).Nodup ∧
    (∀ x ∈ (fcRun adj n l v comps).1, x < n) ∧
    (∀ x ∈ (fcRun adj n l v comps).1, ∀ y, y < n → adj x y = true →
      y ∈ (fcRun adj n l v comps).1) ∧
    (∀ C ∈ (fcRun adj n l v comps).2, ∀ x ∈ C, ∀ y, y < n → adj x y = true → y ∈ C) ∧
    (∀ C ∈ (fcRun adj n l v comps).2, C ≠ []) ∧
    (∀ C ∈ (fcRun adj n l v comps).2, 2 ≤ C.length → ∀ x ∈ C,
      ∃ y ∈ C, y ≠ x ∧ adj x y = true) ∧
    (∀ x ∈ l, x ∈ (fcRun adj n l v comps).1) ∧
    (∀ x ∈ v, x ∈ (fcRun adj n l v comps).1) := by
  intro l
  induction l with
  | nil =>
    intro v comps _ hA hB hC hD hE hF hH
    exact ⟨hA, hB, hC, hD, hE, hF, hH, by simp, fun x hx => hx⟩
  | cons node l ih =>
    intro v comps hl hA hB hC hD hE hF hH
    have hnode : node < n := hl node (List.mem_cons_self _ _)
    have hl' : ∀ x ∈ l, x < n := fun x hx => hl x (List.mem_cons_of_mem _ hx)
    by_cases hc : v.contains node = true
    · have hrw : fcRun adj n (node :: l) v comps = fcRun adj n l v comps := by
        simp only [fcRun, hc, if_true]
      rw [hrw]
      obtain ⟨rA, rB, rC, rD, rE, rF, rH, rCov, rMono⟩ :=
        ih v comps hl' hA hB hC hD hE hF hH
      refine ⟨rA, rB, rC, rD, rE, rF, rH, ?_, rMono⟩
      intro x hx
      rcases List.mem_cons.mp hx with hx' | hx
      · subst hx'
        exact rMono x (by simpa using hc)
      · exact rCov x hx
    · have hcf : v.contains node = false := by
        cases hcb : v.contains node
        · rfl
        · exact absurd hcb hc
      have hnv : node ∉ v := by simpa using hcf
      have hfuel : unvis n (node :: v) ≤ n := unvis_le n (node :: v)
      obtain ⟨d, hv1, hc1, hnd, hout, hlt, hfr, hclo, hvst, hroot⟩ :=
        dfsGo_spec adj n n (List.range n) node (node :: v) [node] hfuel
          (fun x hx => List.mem_range.mp hx) (List.mem_cons_self _ _)
      set s := dfsGo adj n n node (List.range n) (node :: v, [node]) with hs
      have hrw : fcRun adj n (node :: l) v comps =
          fcRun adj n l s.1 (comps ++ [s.2]) := by
        simp only [fcRun, hcf, Bool.false_eq_true, if_false, hs]
      rw [hrw]
      have hsC : s.2 = node :: d.reverse := by
        rw [hc1]
        rfl
      have hmem_s1 : ∀ x, x ∈ s.1 ↔ (x ∈ d ∨ x = node ∨ x ∈ v) := by
        intro x
        rw [hv1]
        simp
      have hmem_s2 : ∀ x, x ∈ s.2 ↔ (x = node ∨ x ∈ d) := by
        intro x
        rw [hsC]
        simp
      have hs2mem : s.2 ∈ comps ++ [s.2] :=
        List.mem_append.mpr (Or.inr (List.mem_singleton.mpr rfl))
      have hA' : ∀ x, x ∈ s.1 ↔ ∃ C ∈ comps ++ [s.2], x ∈ C := by
        intro x
        rw [hmem_s1 x]
        constructor
        · rintro (hx | hx | hx)
          · exact ⟨s.2, hs2mem, (hmem_s2 x).mpr (Or.inr hx)⟩
          · exact ⟨s.2, hs2mem, (hmem_s2 x).mpr (Or.inl hx)⟩
          · obtain ⟨C, hC0, hxC⟩ := (hA x).mp hx
            exact ⟨C, List.mem_append.mpr (Or.inl hC0), hxC⟩
        · rintro ⟨C, hC0, hxC⟩
          rcases List.mem_append.mp hC0 with hC0 | hC0
          · exact Or.inr (Or.inr ((hA x).mpr ⟨C, hC0, hxC⟩))
          · rcases List.mem_singleton.mp hC0 with rfl
            rcases (hmem_s2 x).mp hxC with hx' | hx'
            · exact Or.inr (Or.inl hx')
            · exact Or.inl hx'
      have hB' : ((comps ++ [s.2]).flatten).Nodup := by
        rw [List.flatten_append]
        have hj2 : [s.2].flatten = s.2 := by simp
        rw [hj2, List.nodup_append]
        refine ⟨hB, ?_, ?_⟩
        · rw [hsC]
          have hnd2 : node ∉ d.reverse := by
            intro hmem
            exact hout node (List.mem_reverse.mp hmem) (List.mem_cons_self _ _)
          exact List.nodup_cons.mpr ⟨hnd2, List.nodup_reverse.mpr hnd⟩
        · intro a ha hmem
          have hav : a ∈ v := by
            apply (hA a).mpr
            obtain ⟨C, hC0, haC⟩ := List.mem_flatten.mp ha
            exact ⟨C, hC0, haC⟩
          rcases (hmem_s2 a).mp hmem with ha' | ha'
          · subst ha'
            exact hnv hav
          · exact hout a ha' (List.mem_cons_of_mem _ hav)
      have hC' : ∀ x ∈ s.1, x < n := by
        intro x hx
        rcases (hmem_s1 x).mp hx with hx | hx | hx
        · exact hlt x hx
        · subst hx
          exact hnode
        · exact hC x hx
      have hD' : ∀ x ∈ s.1, ∀ y, y < n → adj x y = true → y ∈ s.1 := by
        intro x hx y hy hadj
        rcases (hmem_s1 x).mp hx with hx | hx | hx
        · exact hclo x hx y hy hadj
        · subst hx
          exact hfr y (List.mem_range.mpr hy) hadj
        · exact (hmem_s1 y).mpr (Or.inr (Or.inr (hD x hx y hy hadj)))
      have hE' : ∀ C ∈ comps ++ [s.2], ∀ x ∈ C, ∀ y, y < n → adj x y = true →
          y ∈ C := by
        intro C hC0 x hx y hy hadj
        rcases List.mem_append.mp hC0 with hC0 | hC0
        · exact hE C hC0 x hx y hy hadj
        · rcases List.mem_singleton.mp hC0 with rfl
          have hxs1 : x ∈ s.1 := by
            apply (hmem_s1 x).mpr
            rcases (hmem_s2 x).mp hx with hx' | hx'
            · exact Or.inr (Or.inl hx')
            · exact Or.inl hx'
          have hys1 : y ∈ s.1 := hD' x hxs1 y hy hadj
          rcases (hmem_s1 y).mp hys1 with hy' | hy' | hy'
          · exact (hmem_s2 y).mpr (Or.inr hy')
          · exact (hmem_s2 y).mpr (Or.inl hy')
          · exfalso
            have hyx : adj y x = true := by
              rw [hsym y x]
              exact hadj
            have hxv : x ∈ v := hD y hy' x (hC' x hxs1) hyx
            rcases (hmem_s2 x).mp hx with hx' | hx'
            · subst hx'
              exact hnv hxv
            · exact hout x hx' (List.mem_cons_of_mem _ hxv)
      have hF' : ∀ C ∈ comps ++ [s.2], C ≠ [] := by
        intro C hC0
        rcases List.mem_append.mp hC0 with hC0 | hC0
        · exact hF C hC0
        · rcases List.mem_singleton.mp hC0 with rfl
          rw [hsC]
          simp
      have hH' : ∀ C ∈ comps ++ [s.2], 2 ≤ C.length → ∀ x ∈ C,
          ∃ y ∈ C, y ≠ x ∧ adj x y = true := by
        intro C hC0 hlen x hx
        rcases List.mem_append.mp hC0 with hC0 | hC0
        · exact hH C hC0 hlen x hx
        · rcases List.mem_singleton.mp hC0 with rfl
          have hdne : d ≠ [] := by
            intro hdnil
            rw [hsC, hdnil] at hlen
            simp at hlen
          rcases (hmem_s2 x).mp hx with hx' | hx'
          · subst hx'
            obtain ⟨z, hzd, hadjz⟩ := hroot hdne
            refine ⟨z, (hmem_s2 z).mpr (Or.inr hzd), ?_, hadjz⟩
            intro hzx
            rw [hzx] at hzd
            exact hout x hzd (List.mem_cons_self _ _)
          · obtain ⟨y, hy, hne, hadjy⟩ := hvst x hx'
            refine ⟨y, ?_, hne, ?_⟩
            · rcases hy with hy' | hy'
              · exact (hmem_s2 y).mpr (Or.inl hy')
              · exact (hmem_s2 y).mpr (Or.inr hy')
            · rw [hsym x y]
              exact hadjy
      obtain ⟨rA, rB, rC, rD, rE, rF, rH, rCov, rMono⟩ :=
        ih s.1 (comps ++ [s.2]) hl' hA' hB' hC' hD' hE' hF' hH'
      refine ⟨rA, rB, rC, rD, rE, rF, rH, ?_, ?_⟩
      · intro x hx
        rcases List.mem_cons.mp hx with hx' | hx
        · subst hx'
          exact rMono x ((hmem_s1 x).mpr (Or.inr (Or.inl rfl)))
        · exact rCov x hx
      · intro x hx
        exact rMono x ((hmem_s1 x).mpr (Or.inr (Or.inr hx)))

/-- `findComponents` partitions `range n` into nonempty, pairwise-disjoint,
adjacency-closed components; a component with two or more nodes has no
isolated member (adjacency symmetric). -/
theorem findComponents_spec (adj : ℕ → ℕ → Bool) (n : ℕ)
    (hsym : ∀ i j, adj i j = adj j i) :
    (∀ C ∈ findComponents adj n, C ≠ []) ∧
    ((findComponents adj n).flatten).Nodup ∧
    (∀ C ∈ findComponents adj n, ∀ x ∈ C, x < n) ∧
    (∀ x, x < n → ∃ C ∈ findComponents adj n, x ∈ C) ∧
    (∀ C ∈ findComponents adj n, ∀ x ∈ C, ∀ y, y < n → adj x y = true → y ∈ C) ∧
    (∀ C ∈ findComponents adj n, 2 ≤ C.length → ∀ x ∈ C,
      ∃ y ∈ C, y ≠ x ∧ adj x y = true) := by
  have h0 := fcRun_inv adj n hsym (List.range n) [] []
    (fun x hx => List.mem_range.mp hx)
    (by intro x; simp)
    (by simp)
    (by simp)
    (by simp)
    (by simp)
    (by simp)
    (by simp)
  obtain ⟨rA, rB, rC, rD, rE, rF, rH, rCov, _⟩ := h0
  rw [findComponents_eq_fcRun]
  refine ⟨rF, rB, ?_, ?_, rE, rH⟩
  · intro C hC0 x hx
    exact rC x ((rA x).mpr ⟨C, hC0, hx⟩)
  · intro x hx
    exact (rA x).mp (rCov x (List.mem_range.mpr hx))

/-- In a duplicate-free concatenation, an element belongs to only one block. -/
theorem flatten_nodup_unique {ls : List (List α)} (h : (ls.flatten).Nodup)
    {C1 C2 : List α} (h1 : C1 ∈ ls) (h2 : C2 ∈ ls) {x : α}
    (hx1 : x ∈ C1) (hx2 : x ∈ C2) : C1 = C2 := by
  induction ls with
  | nil => simp at h1
  | cons C rest ih =>
    rw [List.flatten_cons, List.nodup_append] at h
    obtain ⟨_, hrest, hdisj⟩ := h
    rcases List.mem_cons.mp h1 with h1' | h1' <;>
      rcases List.mem_cons.mp h2 with h2' | h2'
    · rw [h1', h2']
    · subst h1'
      exact absurd (List.mem_flatten.mpr ⟨C2, h2', hx2⟩) (hdisj hx1)
    · subst h2'
      exact absurd (List.mem_flatten.mpr ⟨C1, h1', hx1⟩) (hdisj hx2)
    · exact ih hrest h1' h2'

/-! ### Helpers for the matrix / graph alignment -/

/-- A full filterMap (no element dropped) extracts pointwise. -/
theorem filterMap_full_getD (f : α → Option β) :
    ∀ (l : List α), (l.filterMap f).length = l.length →
    ∀ i, i < l.length → ∀ (d : α) (d' : β),
    f (l.getD i d) = some ((l.filterMap f).getD i d') := by
  intro l
  induction l with
  | nil =>
    intro _ i hi
    simp at hi
  | cons a t ih =>
    intro hlen i hi d d'
    cases hfa : f a with
    | none =>
      rw [List.filterMap_cons_none hfa] at hlen
      have := List.length_filterMap_le f t
      simp at hlen
      omega
    | some b =>
      rw [List.filterMap_cons_some hfa] at hlen
      simp only [List.length_cons] at hlen
      have hlen' : (List.filterMap f t).length = t.length := by omega
      cases i with
      | zero =>
        rw [List.filterMap_cons_some hfa]
        exact hfa
      | succ i' =>
        rw [List.filterMap_cons_some hfa]
        exact ih hlen' i' (by simpa using hi) d d'

/-- A guarded filterMap whose guard guarantees a value keeps exactly the
elements passing the guard. -/
theorem length_filterMap_guard (p : α → Bool) (f : α → Option β)
    (h : ∀ x, p x = true → (f x).isSome) :
    ∀ l : List α, (l.filterMap (fun x => if p x then f x else none)).length =
      (l.filter p).length := by
  intro l
  induction l with
  | nil => rfl
  | cons a t ih =>
    by_cases hp : p a = true
    · obtain ⟨b, hb⟩ := Option.isSome_iff_exists.mp (h a hp)
      have hga : (if p a = true then f a else none) = some b := by
        simp [hp, hb]
      rw [List.filter_cons_of_pos hp]
      simp [List.filterMap_cons, hga, ih]
    · have hpf : p a = false := by
        cases hpb : p a
        · rfl
        · exact absurd hpb hp
      have hga : (if p a = true then f a else none) = none := by
        simp [hpf]
      rw [List.filter_cons_of_neg hp]
      simp [List.filterMap_cons, hga, ih]

theorem getD_mem : ∀ {l : List α} {i : ℕ}, i < l.length → ∀ (d : α), l.getD i d ∈ l := by
  intro l
  induction l with
  | nil =>
    intro i hi
    simp at hi
  | cons a t ih =>
    intro i hi d
    cases i with
    | zero => exact List.mem_cons_self _ _
    | succ i' => exact List.mem_cons_of_mem _ (ih (by simpa using hi) d)

theorem mem_enum_of_lt_getD (l : List α) (i : ℕ) (h : i < l.length) (d : α) :
    (i, l.getD i d) ∈ l.enum := by
  apply List.mem_enum_iff_getElem?.mpr
  rw [List.getElem?_eq_getElem h]
  rw [List.getD_eq_getElem?_getD, List.getElem?_eq_getElem h]
  rfl

theorem enum_mem_elim {l : List α} {i : ℕ} {a : α} (h : (i, a) ∈ l.enum) (d : α) :
    i < l.length ∧ l.getD i d = a := by
  have h' := List.mem_enum_iff_getElem?.mp h
  have hlt : i < l.length := by
    by_contra hge
    rw [List.getElem?_eq_none (by omega)] at h'
    exact Option.noConfusion h'
  refine ⟨hlt, ?_⟩
  rw [List.getD_eq_getElem?_getD, h']
  rfl

/-- Every entry of an `assocSet` fold over an enumerated list is either from
the initial dict or carries the written value of one of the keys. -/
theorem mem_foldl_assocSet (f : ℕ × String → α) :
    ∀ (l : List (ℕ × String)) (acc : List (String × α)) (e : String × α),
    e ∈ l.foldl (fun g ip => assocSet g ip.2 (f ip)) acc →
    e ∈ acc ∨ ∃ ip ∈ l, e = (ip.2, f ip) := by
  intro l
  induction l with
  | nil =>
    intro acc e he
    exact Or.inl he
  | cons ip0 rest ih =>
    intro acc e he
    rw [List.foldl_cons] at he
    rcases ih (assocSet acc ip0.2 (f ip0)) e he with he' | ⟨ip, hip, hE⟩
    · rcases mem_assocSet acc ip0.2 (f ip0) e he' with he'' | he''
      · exact Or.inl he''
      · exact Or.inr ⟨ip0, List.mem_cons_self _ _, he''⟩
    · exact Or.inr ⟨ip, List.mem_cons_of_mem _ hip, hE⟩

/-- Every key written during the fold (and every key already present) is
present afterwards. -/
theorem assocFind_foldl_assocSet_isSome (f : ℕ × String → α) :
    ∀ (l : List (ℕ × String)) (acc : List (String × α)) (k : String),
    ((∃ i, (i, k) ∈ l) ∨ (assocFind acc k).isSome) →
    (assocFind (l.foldl (fun g ip => assocSet g ip.2 (f ip)) acc) k).isSome := by
  intro l
  induction l with
  | nil =>
    intro acc k h
    rcases h with ⟨i, hi⟩ | h
    · simp at hi
    · exact h
  | cons ip0 rest ih =>
    intro acc k h
    rw [List.foldl_cons]
    apply ih
    rcases h with ⟨i, hi⟩ | h
    · rcases List.mem_cons.mp hi with hi' | hi'
      · refine Or.inr ?_
        have : k = ip0.2 := by
          rw [← hi']
        rw [this]
        rw [assocFind_assocSet_self]
        rfl
      · exact Or.inl ⟨i, hi'⟩
    · exact Or.inr (assocFind_isSome_assocSet acc ip0.2 k (f ip0) (Or.inl h))

theorem hasEmb_isSome {E : Externals} {st : EngineState} {fp : String}
    (h : hasEmb E st fp = true) : (embOf E st fp).isSome := by
  unfold hasEmb at h
  rw [Bool.and_eq_true] at h
  exact h.2

theorem simRows_length (E : Externals) (st : EngineState) (fps : List String) :
    (simRows E st fps).length = (fps.filter (fun fp => hasEmb E st fp)).length := by
  unfold simRows
  rw [List.length_map]
  exact length_filterMap_guard _ _ (fun x hx => hasEmb_isSome hx) fps

theorem sim_matrix_length (E : Externals) (st : EngineState) (fps : List String) :
    (get_similarity_matrix E st fps).length =
      (fps.filter (fun fp => hasEmb E st fp)).length := by
  unfold get_similarity_matrix
  by_cases h1 : fps.isEmpty = true
  · rw [if_pos h1]
    have h1' : fps = [] := List.isEmpty_iff.mp h1
    subst h1'
    rfl
  · rw [if_neg h1]
    by_cases h2 : (simRows E st fps).isEmpty = true
    · rw [if_pos h2]
      have h3 : (simRows E st fps).length = 0 := by
        rw [List.isEmpty_iff.mp h2]
        rfl
      rw [simRows_length] at h3
      simp [h3]
    · rw [if_neg h2, List.length_map]
      exact simRows_length E st fps

theorem sim_matrix_cases (E : Externals) (st : EngineState) (fps : List String) :
    get_similarity_matrix E st fps = [] ∨
    (get_similarity_matrix E st fps =
      (simRows E st fps).map (fun r => (simRows E st fps).map (fun r2 => dot r r2)) ∧
      (simRows E st fps).length = (get_similarity_matrix E st fps).length) := by
  unfold get_similarity_matrix
  by_cases h1 : fps.isEmpty = true
  · rw [if_pos h1]
    exact Or.inl rfl
  · rw [if_neg h1]
    by_cases h2 : (simRows E st fps).isEmpty = true
    · rw [if_pos h2]
      exact Or.inl rfl
    · rw [if_neg h2]
      exact Or.inr ⟨rfl, (List.length_map _ _).symm⟩

theorem sim_matrix_row_length (E : Externals) (st : EngineState) (fps : List String) :
    ∀ row ∈ get_similarity_matrix E st fps,
      row.length = (get_similarity_matrix E st fps).length := by
  rcases sim_matrix_cases E st fps with h | ⟨h, hlen⟩
  · rw [h]
    intro row hrow
    simp at hrow
  · intro row hrow
    rw [h] at hrow
    obtain ⟨r, _, hr⟩ := List.mem_map.mp hrow
    rw [← hr, List.length_map]
    exact hlen

theorem sim_entry_lt (E : Externals) (st : EngineState) (fps : List String) :
    ∀ i j, i < (get_similarity_matrix E st fps).length →
    j < (get_similarity_matrix E st fps).length →
    ((get_similarity_matrix E st fps).getD i []).getD j 0 =
      dot ((simRows E st fps).getD i []) ((simRows E st fps).getD j []) := by
  intro i j hi hj
  rcases sim_matrix_cases E st fps with h | ⟨h, hlen⟩
  · rw [h] at hi
    simp at hi
  · rw [h, getD_map_lt _ _ i (by omega) [] [], getD_map_lt _ _ j (by omega) 0 []]

theorem sim_entry_oob (E : Externals) (st : EngineState) (fps : List String) :
    ∀ i j, ((get_similarity_matrix E st fps).length ≤ i ∨
      (get_similarity_matrix E st fps).length ≤ j) →
    ((get_similarity_matrix E st fps).getD i []).getD j 0 = 0 := by
  intro i j h
  by_cases hi : i < (get_similarity_matrix E st fps).length
  · have hj : (get_similarity_matrix E st fps).length ≤ j := by
      rcases h with h | h
      · omega
      · exact h
    have hrow : (get_similarity_matrix E st fps).getD i [] ∈
        get_similarity_matrix E st fps := getD_mem hi []
    have hlen : ((get_similarity_matrix E st fps).getD i []).length ≤ j := by
      rw [sim_matrix_row_length E st fps _ hrow]
      exact hj
    rw [List.getD_eq_default _ _ hlen]
  · have hSi : (get_similarity_matrix E st fps).length ≤ i := by omega
    rw [List.getD_eq_default (get_similarity_matrix E st fps) [] hSi, List.getD_nil]

theorem sim_adj_symm (E : Externals) (st : EngineState) (fps : List String) (θ : ℚ) :
    ∀ i j, adjOf (get_similarity_matrix E st fps) θ i j =
      adjOf (get_similarity_matrix E st fps) θ j i := by
  intro i j
  unfold adjOf
  by_cases hi : i < (get_similarity_matrix E st fps).length <;>
    by_cases hj : j < (get_similarity_matrix E st fps).length
  · rw [sim_entry_lt E st fps i j hi hj, sim_entry_lt E st fps j i hj hi, dot_comm]
  · rw [sim_entry_oob E st fps i j (Or.inr (by omega)),
      sim_entry_oob E st fps j i (Or.inl (by omega))]
  · rw [sim_entry_oob E st fps i j (Or.inl (by omega)),
      sim_entry_oob E st fps j i (Or.inr (by omega))]
  · rw [sim_entry_oob E st fps i j (Or.inl (by omega)),
      sim_entry_oob E st fps j i (Or.inl (by omega))]

theorem sim_matrix_full_hasEmb (E : Externals) (st : EngineState) (fps : List String)
    (h : (get_similarity_matrix E st fps).length = fps.length) :
    ∀ fp ∈ fps, hasEmb E st fp = true := by
  rw [sim_matrix_length] at h
  have hsub : (fps.filter (fun fp => hasEmb E st fp)).Sublist fps :=
    List.filter_sublist fps
  have heq := hsub.eq_of_length h
  exact fun fp hfp => List.filter_eq_self.mp heq fp hfp

theorem simRows_length_full (E : Externals) (st : EngineState) (fps : List String)
    (hall : ∀ fp ∈ fps, hasEmb E st fp = true) :
    (simRows E st fps).length = fps.length := by
  rw [simRows_length, List.filter_eq_self.mpr hall]

theorem sim_matrix_length_full (E : Externals) (st : EngineState) (fps : List String)
    (hall : ∀ fp ∈ fps, hasEmb E st fp = true) :
    (get_similarity_matrix E st fps).length = fps.length := by
  rw [sim_matrix_length, List.filter_eq_self.mpr hall]

theorem simRows_getD_full (E : Externals) (st : EngineState) (fps : List String)
    (hfull : (simRows E st fps).length = fps.length) :
    ∀ i, i < fps.length →
      (simRows E st fps).getD i [] = wvec E st (fps.getD i "") := by
  intro i hi
  have hfm : (fps.filterMap
      (fun fp => if hasEmb E st fp then embOf E st fp else none)).length =
      fps.length := by
    have h0 := hfull
    unfold simRows at h0
    rw [List.length_map] at h0
    exact h0
  have hkeep := filterMap_full_getD _ fps hfm i hi "" []
  unfold simRows
  rw [getD_map_lt _ _ i (by rw [hfm]; exact hi) [] []]
  unfold wvec
  congr 1
  by_cases hE : hasEmb E st (fps.getD i "") = true
  · simp only [hE, if_true] at hkeep
    rw [hkeep]
    rfl
  · have hEf : hasEmb E st (fps.getD i "") = false := by
      cases hEb : hasEmb E st (fps.getD i "")
      · rfl
      · exact absurd hEb hE
    simp only [hEf, Bool.false_eq_true, if_false] at hkeep
    exact Option.noConfusion hkeep

theorem sim_entry_wvec (E : Externals) (st : EngineState) (fps : List String)
    (hfull : (get_similarity_matrix E st fps).length = fps.length) :
    ∀ i j, i < fps.length → j < fps.length →
    ((get_similarity_matrix E st fps).getD i []).getD j 0 =
      dot (wvec E st (fps.getD i "")) (wvec E st (fps.getD j "")) := by
  intro i j hi hj
  have hM : (simRows E st fps).length = fps.length :=
    simRows_length_full E st fps (sim_matrix_full_hasEmb E st fps hfull)
  rw [sim_entry_lt E st fps i j (by omega) (by omega),
    simRows_getD_full E st fps hM i hi, simRows_getD_full E st fps hM j hj]

theorem exists_getD_of_mem {l : List α} {a : α} (h : a ∈ l) (d : α) :
    ∃ i, i < l.length ∧ l.getD i d = a := by
  obtain ⟨i, hi, hEq⟩ := List.mem_iff_getElem.mp h
  refine ⟨i, hi, ?_⟩
  rw [List.getD_eq_getElem?_getD, List.getElem?_eq_getElem hi]
  exact hEq

theorem mem_related (all_paths : List String) (S : List (List ℚ)) (θ : ℚ) (i : ℕ)
    (q : String) :
    q ∈ related all_paths S θ i ↔
      ∃ j, j < all_paths.length ∧ all_paths.getD j "" = q ∧ j ≠ i ∧
        θ ≤ (S.getD i []).getD j 0 := by
  unfold related
  rw [List.mem_filterMap]
  constructor
  · rintro ⟨jq, hjq, hf⟩
    by_cases hc : jq.1 ≠ i ∧ θ ≤ (S.getD i []).getD jq.1 0
    · rw [if_pos hc] at hf
      have hjq' : (jq.1, jq.2) ∈ all_paths.enum := by
        rw [Prod.mk.eta]
        exact hjq
      obtain ⟨hlt, hget⟩ := enum_mem_elim hjq' ""
      refine ⟨jq.1, hlt, ?_, hc.1, hc.2⟩
      rw [hget]
      exact Option.some.inj hf
    · rw [if_neg hc] at hf
      exact Option.noConfusion hf
  · rintro ⟨j, hj, hq, hne, hθ⟩
    refine ⟨(j, all_paths.getD j ""), mem_enum_of_lt_getD all_paths j hj "", ?_⟩
    rw [if_pos ⟨hne, hθ⟩, hq]

theorem mem_buildGraph (all_paths : List String) (S : List (List ℚ)) (θ : ℚ)
    (e : String × List String) (he : e ∈ buildGraph all_paths S θ) :
    ∃ i, i < all_paths.length ∧ all_paths.getD i "" = e.1 ∧
      e.2 = related all_paths S θ i := by
  unfold buildGraph at he
  rcases mem_foldl_assocSet (fun ip => related all_paths S θ ip.1) all_paths.enum []
      e he with h | ⟨ip, hip, hE⟩
  · simp at h
  · have hip' : (ip.1, ip.2) ∈ all_paths.enum := by
      rw [Prod.mk.eta]
      exact hip
    obtain ⟨hlt, hget⟩ := enum_mem_elim hip' ""
    refine ⟨ip.1, hlt, ?_, ?_⟩
    · rw [hE]
      exact hget
    · rw [hE]

theorem buildGraph_key_mem (all_paths : List String) (S : List (List ℚ)) (θ : ℚ)
    (fp : String) (hfp : fp ∈ all_paths) :
    ∃ conns, (fp, conns) ∈ buildGraph all_paths S θ := by
  obtain ⟨i, hi, hEq⟩ := exists_getD_of_mem hfp ""
  have hen : (i, fp) ∈ all_paths.enum := by
    rw [← hEq]
    exact mem_enum_of_lt_getD all_paths i hi ""
  have hsome := assocFind_foldl_assocSet_isSome (fun ip => related all_paths S θ ip.1)
    all_paths.enum [] fp (Or.inl ⟨i, hen⟩)
  obtain ⟨conns, hconns⟩ := Option.isSome_iff_exists.mp hsome
  exact ⟨conns, assocFind_mem _ _ _ hconns⟩

theorem get_vault_graph_some_elim (E : Externals) (st : EngineState) (θ : ℚ)
    (folder : Option String) (g : List (String × List String))
    (hg : get_vault_graph E st θ folder = some g) :
    g = [] ∨
    ∃ m, st.metadata = some m ∧
      g = buildGraph (applyFolder m.note_paths folder)
        (get_similarity_matrix E st (applyFolder m.note_paths folder)) θ ∧
      ((get_similarity_matrix E st (applyFolder m.note_paths folder)).length =
          (applyFolder m.note_paths folder).length ∨
        (applyFolder m.note_paths folder).length < 2) := by
  unfold get_vault_graph at hg
  split at hg
  next => exact Or.inl (Option.some.inj hg).symm
  next m hm =>
    split at hg
    next => exact Or.inl (Option.some.inj hg).symm
    next h1 =>
      split at hg
      next => exact Or.inl (Option.some.inj hg).symm
      next h2 =>
        split at hg
        next h3 => exact Option.noConfusion hg
        next h3 =>
          refine Or.inr ⟨m, hm, (Option.some.inj hg).symm, ?_⟩
          have hle : (get_similarity_matrix E st
              (applyFolder m.note_paths folder)).length ≤
              (applyFolder m.note_paths folder).length := by
            rw [sim_matrix_length]
            exact List.length_filter_le _ _
          omega

theorem analyze_clusters_elim (E : Externals) (st : EngineState) (θ : ℚ)
    (folder : Option String) (m : IdxMeta) (hm : st.metadata = some m)
    (cl : Cluster) (hcl : cl ∈ analyze_note_clusters E st θ folder) :
    ∃ C ∈ findComponents
        (adjOf (get_similarity_matrix E st (applyFolder m.note_paths folder)) θ)
        (get_similarity_matrix E st (applyFolder m.note_paths folder)).length,
      2 ≤ C.length ∧
      cl = { size := C.length,
             notes := C.map (fun i => (applyFolder m.note_paths folder).getD i "") } := by
  unfold analyze_note_clusters at hcl
  split at hcl
  next hm0 =>
    rw [hm0] at hm
    exact Option.noConfusion hm
  next m0 hm0 =>
    have hmm : m0 = m := by
      rw [hm0] at hm
      exact Option.some.inj hm
    subst hmm
    split at hcl
    next => simp at hcl
    next h1 =>
      split at hcl
      next => simp at hcl
      next h2 =>
        rw [mem_sortDesc] at hcl
        obtain ⟨C, hC, hEq⟩ := List.mem_map.mp hcl
        rw [List.mem_filter] at hC
        exact ⟨C, hC.1, by simpa using hC.2, hEq.symm⟩

/-- A graph edge keeps cluster membership invariant: any cluster (a
connected component of the thresholded matrix) contains the source path iff
it contains the target path, because both endpoints' rows are functions of
the path strings and components are adjacency-closed. -/
theorem cluster_component_iff (wv : String → List ℚ) (paths : List String)
    (S : List (List ℚ)) (θ : ℚ)
    (hSlen : S.length = paths.length)
    (hentry : ∀ i j, i < paths.length → j < paths.length →
      (S.getD i []).getD j 0 = dot (wv (paths.getD i "")) (wv (paths.getD j "")))
    (hsym : ∀ i j, adjOf S θ i j = adjOf S θ j i)
    (i0 j0 : ℕ) (hi0 : i0 < paths.length) (hj0 : j0 < paths.length)
    (hθ0 : θ ≤ (S.getD i0 []).getD j0 0)
    (C : List ℕ) (hC : C ∈ findComponents (adjOf S θ) S.length) :
    ((paths.getD i0 "") ∈ C.map (fun k => paths.getD k "") ↔
     (paths.getD j0 "") ∈ C.map (fun k => paths.getD k "")) := by
  obtain ⟨_, _, hbound, _, hclosed, _⟩ := findComponents_spec (adjOf S θ) S.length hsym
  constructor
  · intro hp
    obtain ⟨k, hk, hkp⟩ := List.mem_map.mp hp
    have hkb : k < S.length := hbound C hC k hk
    have hadj : adjOf S θ k j0 = true := by
      unfold adjOf
      apply decide_eq_true
      rw [hentry k j0 (by omega) hj0, hkp]
      rw [hentry i0 j0 hi0 hj0] at hθ0
      exact hθ0
    exact List.mem_map.mpr ⟨j0, hclosed C hC k hk j0 (by omega) hadj, rfl⟩
  · intro hq
    obtain ⟨k, hk, hkq⟩ := List.mem_map.mp hq
    have hkb : k < S.length := hbound C hC k hk
    have hadj : adjOf S θ k i0 = true := by
      unfold adjOf
      apply decide_eq_true
      rw [hentry k i0 (by omega) hi0, hkq, dot_comm]
      rw [hentry i0 j0 hi0 hj0] at hθ0
      exact hθ0
    exact List.mem_map.mpr ⟨i0, hclosed C hC k hk i0 (by omega) hadj, rfl⟩

theorem noteCluster_congr (cls : List Cluster) (p q : String)
    (h : ∀ cl ∈ cls, (p ∈ cl.notes ↔ q ∈ cl.notes)) :
    noteCluster cls p = noteCluster cls q := by
  unfold noteCluster
  have haux : ∀ (l : List (ℕ × Cluster)) (acc : Option ℕ),
      (∀ ic ∈ l, (p ∈ ic.2.notes ↔ q ∈ ic.2.notes)) →
      l.foldl (fun acc ic => if p ∈ ic.2.notes then some ic.1 else acc) acc =
      l.foldl (fun acc ic => if q ∈ ic.2.notes then some ic.1 else acc) acc := by
    intro l
    induction l with
    | nil =>
      intro acc _
      rfl
    | cons ic rest ih =>
      intro acc hl
      rw [List.foldl_cons, List.foldl_cons]
      have hic := hl ic (List.mem_cons_self _ _)
      by_cases hp : p ∈ ic.2.notes
      · rw [if_pos hp, if_pos (hic.mp hp)]
        exact ih _ (fun x hx => hl x (List.mem_cons_of_mem _ hx))
      · rw [if_neg hp, if_neg (fun hq0 => hp (hic.mpr hq0))]
        exact ih _ (fun x hx => hl x (List.mem_cons_of_mem _ hx))
  apply haux
  intro ic hic
  apply h
  have hic' : (ic.1, ic.2) ∈ cls.enum := by
    rw [Prod.mk.eta]
    exact hic
  obtain ⟨hlt, hget⟩ := enum_mem_elim hic' { size := 0, notes := [] }
  rw [← hget]
  exact getD_mem hlt _

/-- Any graph neighbor of a path is assigned the same cluster id by
`note_to_cluster`: an edge means the thresholded similarity held, so every
cluster (an adjacency-closed component) contains one endpoint iff it
contains the other, and the last-write-wins fold then agrees. -/
theorem neighbor_same_cluster (E : Externals) (st : EngineState) (θ : ℚ)
    (folder : Option String) (g : List (String × List String))
    (hg : get_vault_graph E st θ folder = some g)
    (pc : String × List String) (hpc : pc ∈ g) (q : String) (hq : q ∈ pc.2) :
    noteCluster (analyze_note_clusters E st θ folder) pc.1 =
      noteCluster (analyze_note_clusters E st θ folder) q := by
  rcases get_vault_graph_some_elim E st θ folder g hg with hnil | ⟨m, hm, hgB, halign⟩
  · subst hnil
    simp at hpc
  · rw [hgB] at hpc
    obtain ⟨i0, hi0, hp0, hconns⟩ := mem_buildGraph _ _ _ pc hpc
    rw [hconns] at hq
    obtain ⟨j0, hj0, hq0, hne, hθ0⟩ := (mem_related _ _ _ _ q).mp hq
    rcases halign with halign | hsmall
    · apply noteCluster_congr
      intro cl hcl
      obtain ⟨C, hC, _, hcleq⟩ := analyze_clusters_elim E st θ folder m hm cl hcl
      have hiff := cluster_component_iff (wvec E st)
        (applyFolder m.note_paths folder)
        (get_similarity_matrix E st (applyFolder m.note_paths folder)) θ
        halign (sim_entry_wvec E st _ halign) (sim_adj_symm E st _ θ)
        i0 j0 hi0 hj0 hθ0 C hC
      rw [hcleq, ← hp0, ← hq0]
      exact hiff
    · exact absurd rfl (by omega : i0 ≠ i0)

/-- Under exact arithmetic `find_bridge_notes` never reports a bridge:
every candidate's neighbors share its cluster id, so the required two
distinct foreign clusters never materialise. -/
theorem find_bridge_notes_empty (E : Externals) (st : EngineState) (θ : ℚ)
    (folder : Option String) (bs : List Bridge)
    (hbs : find_bridge_notes E st θ folder = some bs) : bs = [] := by
  unfold find_bridge_notes at hbs
  split at hbs
  next => exact (Option.some.inj hbs).symm
  next h1 =>
    cases hg : get_vault_graph E st θ folder with
    | none =>
      rw [hg] at hbs
      exact Option.noConfusion hbs
    | some g =>
      rw [hg] at hbs
      have hbs2 := Option.some.inj hbs
      rw [List.eq_nil_iff_forall_not_mem]
      intro b hb
      rw [← hbs2, mem_sortDesc] at hb
      obtain ⟨nc, hnc, hfb⟩ := List.mem_filterMap.mp hb
      split at hfb
      next => exact Option.noConfusion hfb
      next hconn =>
        split at hfb
        next => exact Option.noConfusion hfb
        next cid hcid =>
          split at hfb
          next h2 =>
            have hcc : connectedClusters (analyze_note_clusters E st θ folder)
                cid nc.2 = [] := by
              unfold connectedClusters
              have hfilter : ((nc.2.filterMap
                  (noteCluster (analyze_note_clusters E st θ folder))).filter
                  (fun c => c != cid)) = [] := by
                rw [List.filter_eq_nil_iff]
                intro c hc
                obtain ⟨q, hq, hqc⟩ := List.mem_filterMap.mp hc
                have hsame := neighbor_same_cluster E st θ folder g hg nc hnc q hq
                rw [hcid] at hsame
                rw [← hsame] at hqc
                have hceq : c = cid := (Option.some.inj hqc).symm
                simp [hceq]
              rw [hfilter]
              rfl
            rw [hcc] at h2
            simp at h2
          next => exact Option.noConfusion hfb

/-- C6: for every threshold and optional folder filter, `find_bridge_notes`
reports a clustered path as a bridge exactly when at least one of its graph
neighbors belongs to a different cluster (both sides are in fact always
false: a graph edge forces both endpoints into the same cluster, so the
code's two-distinct-foreign-clusters test never fires and no neighbor ever
lies in a foreign cluster); every reported bridge lists its home cluster
and only foreign clusters reached through its connections; and a nonempty
result requires at least two clusters. -/
theorem C6_bridges (E : Externals) (st : EngineState) (θ : ℚ)
    (folder : Option String) (bs : List Bridge)
    (hbs : find_bridge_notes E st θ folder = some bs)
    (g : List (String × List String))
    (hg : get_vault_graph E st θ folder = some g) :
    (∀ pc ∈ g, ∀ cid,
      noteCluster (analyze_note_clusters E st θ folder) pc.1 = some cid →
      ((∃ b ∈ bs, b.filepath = pc.1) ↔
        (∃ q ∈ pc.2, ∃ c,
          noteCluster (analyze_note_clusters E st θ folder) q = some c ∧ c ≠ cid))) ∧
    (∀ b ∈ bs,
      noteCluster (analyze_note_clusters E st θ folder) b.filepath =
        some b.home_cluster ∧
      b.bridges_to ≠ [] ∧
      (∀ c ∈ b.bridges_to, c ≠ b.home_cluster ∧
        ∃ conns, (b.filepath, conns) ∈ g ∧
          ∃ q ∈ conns, noteCluster (analyze_note_clusters E st θ folder) q = some c)) ∧
    (bs ≠ [] → 2 ≤ (analyze_note_clusters E st θ folder).length) := by
  have hempty : bs = [] := find_bridge_notes_empty E st θ folder bs hbs
  subst hempty
  refine ⟨?_, ?_, ?_⟩
  · intro pc hpc cid hcid
    constructor
    · rintro ⟨b, hb, _⟩
      simp at hb
    · rintro ⟨q, hq, c, hc, hne⟩
      exfalso
      have hsame := neighbor_same_cluster E st θ folder g hg pc hpc q hq
      rw [hcid, hc] at hsame
      exact hne (Option.some.inj hsame).symm
  · intro b hb
    simp at hb
  · intro hne
    exact absurd rfl hne

theorem C6_bridges_witness :
    find_bridge_notes wE engFresh 0 none = some [] ∧
    get_vault_graph wE engFresh 0 none = some [] ∧
    (∀ b ∈ ([] : List Bridge),
      noteCluster (analyze_note_clusters wE engFresh 0 none) b.filepath =
        some b.home_cluster) :=
  ⟨rfl, rfl,
    fun b hb => ((C6_bridges wE engFresh 0 none [] rfl [] rfl).2.1 b hb).1⟩

theorem get_vault_graph_full (E : Externals) (st : EngineState) (θ : ℚ)
    (folder : Option String) (m : IdxMeta) (hm : st.metadata = some m)
    (hall : ∀ fp ∈ applyFolder m.note_paths folder, hasEmb E st fp = true) :
    ∃ g, get_vault_graph E st θ folder = some g ∧
      ∀ fp, (∃ conns, (fp, conns) ∈ g) ↔ fp ∈ applyFolder m.note_paths folder := by
  have hfull : (get_similarity_matrix E st (applyFolder m.note_paths folder)).length =
      (applyFolder m.note_paths folder).length := sim_matrix_length_full E st _ hall
  by_cases hp : (applyFolder m.note_paths folder).isEmpty = true
  · refine ⟨[], ?_, ?_⟩
    · unfold get_vault_graph
      rw [hm]
      show (if (applyFolder m.note_paths folder).isEmpty = true then some []
        else _) = some []
      rw [if_pos hp]
    · intro fp
      constructor
      · rintro ⟨conns, hconns⟩
        simp at hconns
      · intro hfp
        rw [List.isEmpty_iff.mp hp] at hfp
        simp at hfp
  · have hpne : applyFolder m.note_paths folder ≠ [] := by
      intro h0
      rw [h0] at hp
      simp at hp
    have hl : 0 < (applyFolder m.note_paths folder).length := List.length_pos.mpr hpne
    have hSne : (get_similarity_matrix E st
        (applyFolder m.note_paths folder)).isEmpty = false := by
      cases hE0 : (get_similarity_matrix E st
          (applyFolder m.note_paths folder)).isEmpty
      · rfl
      · exfalso
        rw [List.isEmpty_iff.mp hE0] at hfull
        simp at hfull
        omega
    refine ⟨buildGraph (applyFolder m.note_paths folder)
        (get_similarity_matrix E st (applyFolder m.note_paths folder)) θ, ?_, ?_⟩
    · unfold get_vault_graph
      rw [hm]
      show (if (applyFolder m.note_paths folder).isEmpty = true then some []
        else _) = _
      rw [if_neg hp]
      show (if (get_similarity_matrix E st
          (applyFolder m.note_paths folder)).isEmpty = true then some [] else _) = _
      rw [if_neg (by simp [hSne])]
      show (if (get_similarity_matrix E st
            (applyFolder m.note_paths folder)).length <
            (applyFolder m.note_paths folder).length ∧
          2 ≤ (applyFolder m.note_paths folder).length then none else _) = _
      rw [if_neg (by omega)]
    · intro fp
      constructor
      · rintro ⟨conns, hconns⟩
        obtain ⟨i, hi, hEq, _⟩ := mem_buildGraph _ _ _ (fp, conns) hconns
        have hEq' : (applyFolder m.note_paths folder).getD i "" = fp := hEq
        rw [← hEq']
        exact getD_mem hi ""
      · intro hfp
        exact buildGraph_key_mem _ _ _ fp hfp

theorem clusters_notes_sub (E : Externals) (st : EngineState) (θ : ℚ)
    (folder : Option String) (m : IdxMeta) (hm : st.metadata = some m) :
    ∀ cl ∈ analyze_note_clusters E st θ folder, ∀ p ∈ cl.notes,
      p ∈ applyFolder m.note_paths folder := by
  intro cl hcl p hp
  obtain ⟨C, hC, _, hcleq⟩ := analyze_clusters_elim E st θ folder m hm cl hcl
  rw [hcleq] at hp
  obtain ⟨k, hk, hkp⟩ := List.mem_map.mp hp
  obtain ⟨_, _, hbound, _, _, _⟩ := findComponents_spec
    (adjOf (get_similarity_matrix E st (applyFolder m.note_paths folder)) θ)
    (get_similarity_matrix E st (applyFolder m.note_paths folder)).length
    (sim_adj_symm E st _ θ)
  have hkb : k < (get_similarity_matrix E st
      (applyFolder m.note_paths folder)).length := hbound C hC k hk
  have hle : (get_similarity_matrix E st
      (applyFolder m.note_paths folder)).length ≤
      (applyFolder m.note_paths folder).length := by
    rw [sim_matrix_length]
    exact List.length_filter_le _ _
  rw [← hkp]
  exact getD_mem (by omega) ""

/-- C9: if every (folder-filtered) indexed path has a cached embedding,
`get_similarity_matrix` has one row per path in the same order — its length
and every row's length equal the path count, and entry `(i, j)` is the dot
product of the normalized cached vectors of paths `i` and `j` — so the
positional indexing of `get_vault_graph` and `analyze_note_clusters` is
in-bounds: the graph's keys are exactly those paths and every cluster note
is one of them.  Unconditionally the matrix keeps exactly the paths that do
have a cached embedding (rows of the others are silently dropped, losing
the positional correspondence). -/
theorem C9_matrix_alignment (E : Externals) (st : EngineState) (θ : ℚ)
    (folder : Option String) (m : IdxMeta) (hm : st.metadata = some m) :
    ((get_similarity_matrix E st (applyFolder m.note_paths folder)).length =
      ((applyFolder m.note_paths folder).filter (fun fp => hasEmb E st fp)).length) ∧
    ((∀ fp ∈ applyFolder m.note_paths folder, hasEmb E st fp = true) →
      (get_similarity_matrix E st (applyFolder m.note_paths folder)).length =
        (applyFolder m.note_paths folder).length ∧
      (∀ row ∈ get_similarity_matrix E st (applyFolder m.note_paths folder),
        row.length = (applyFolder m.note_paths folder).length) ∧
      (∀ i j, i < (applyFolder m.note_paths folder).length →
        j < (applyFolder m.note_paths folder).length →
        ((get_similarity_matrix E st
            (applyFolder m.note_paths folder)).getD i []).getD j 0 =
          dot (wvec E st ((applyFolder m.note_paths folder).getD i ""))
            (wvec E st ((applyFolder m.note_paths folder).getD j ""))) ∧
      (∃ g, get_vault_graph E st θ folder = some g ∧
        ∀ fp, (∃ conns, (fp, conns) ∈ g) ↔ fp ∈ applyFolder m.note_paths folder) ∧
      (∀ cl ∈ analyze_note_clusters E st θ folder, ∀ p ∈ cl.notes,
        p ∈ applyFolder m.note_paths folder)) := by
  refine ⟨sim_matrix_length E st _, ?_⟩
  intro hall
  have hfull := sim_matrix_length_full E st _ hall
  refine ⟨hfull, ?_, ?_, get_vault_graph_full E st θ folder m hm hall,
    clusters_notes_sub E st θ folder m hm⟩
  · intro row hrow
    rw [sim_matrix_row_length E st _ row hrow, hfull]
  · exact sim_entry_wvec E st _ hfull

theorem C9_matrix_alignment_witness :
    c8st.metadata = some c9meta ∧
    (get_similarity_matrix wE c8st (applyFolder ["A.md", "B.md", "C.md"] none)).length =
      ((applyFolder ["A.md", "B.md", "C.md"] none).filter
        (fun fp => hasEmb wE c8st fp)).length :=
  ⟨rfl, (C9_matrix_alignment wE c8st 0 none c9meta rfl).1⟩
